import Mathlib

/-!
Verification of the primesieve core (PreSieve.cpp, EratSmall.cpp) against its
natural-language specification.

The sieve byte array is modelled as `List Nat`, each element one byte
(always < 256 in practice).  Bit `b` of the byte at index `k` represents the
integer `segmentLow + 30*k + rOff b` where `rOff` lists the offsets
7, 11, 13, 17, 19, 23, 29, 31 used by the code (see the `bit49 = 1 << 4`
constant in PreSieve.cpp and the mask tables of EratSmall.cpp).
-/

set_option maxHeartbeats 1000000
set_option maxRecDepth 100000

/-- The in-byte offset represented by bit `b`: bits 0..7 stand for the
offsets 7, 11, 13, 17, 19, 23, 29, 31 of the 30-integer block of a byte. -/
def rOff : Nat → Nat
  | 0 => 7
  | 1 => 11
  | 2 => 13
  | 3 => 17
  | 4 => 19
  | 5 => 23
  | 6 => 29
  | _ => 31

/-- Modelled from the spec: bits.hpp is not part of the sources; per the spec,
`BIT0..BIT7` are the bitwise complements of the single bits `1<<0 .. 1<<7`
(ANDing clears the bit). -/
def BITm (b : Nat) : Nat := 255 ^^^ (1 <<< b)

/-- Residue mod 30 of each wheel class `c` (ordering of the eight `case`
blocks of EratSmall.cpp: 7, 11, 13, 17, 19, 23, 29, 1).  Also the additive
constant of the fast-path stride `sievingPrime * 30 + clsRes c`. -/
def clsRes : Nat → Nat
  | 0 => 7
  | 1 => 11
  | 2 => 13
  | 3 => 17
  | 4 => 19
  | 5 => 23
  | 6 => 29
  | _ => 1

/-- The wheel multiplier residues coprime to 30, in phase order. -/
def mres : Nat → Nat
  | 0 => 1
  | 1 => 7
  | 2 => 11
  | 3 => 13
  | 4 => 17
  | 5 => 19
  | 6 => 23
  | _ => 29

/-- Multiplier of `sievingPrime` in the per-phase pointer advance
(`p += sievingPrime * amT j + acT c j` in the slow path of EratSmall.cpp);
identical for all eight classes. -/
def amT : Nat → Nat
  | 0 => 6
  | 1 => 4
  | 2 => 2
  | 3 => 4
  | 4 => 2
  | 5 => 4
  | 6 => 6
  | _ => 2

/-- Additive constants of the per-phase pointer advances, one row per class,
transcribed from the eight `case` blocks of EratSmall.cpp. -/
def acRow : Nat → List Nat
  | 0 => [1, 1, 0, 1, 1, 1, 1, 1]
  | 1 => [2, 1, 1, 2, 0, 2, 2, 1]
  | 2 => [2, 2, 1, 2, 1, 1, 3, 1]
  | 3 => [3, 3, 1, 2, 1, 2, 4, 1]
  | 4 => [4, 2, 2, 2, 1, 3, 4, 1]
  | 5 => [5, 3, 1, 3, 2, 3, 5, 1]
  | 6 => [6, 4, 2, 4, 2, 4, 5, 2]
  | _ => [1, 0, 0, 0, 0, 0, 0, 0]

def acT (c j : Nat) : Nat := (acRow c).getD j 0

/-- Pointer advance of one slow-path strike of class `c`, phase `j`, for
sieving prime value `s` (= prime / 30). -/
def adv (s c j : Nat) : Nat := s * amT j + acT c j

/-- The bit cleared by the strike of class `c`, phase `j` (the `BITx`
masks of the eight `case` blocks of EratSmall.cpp). -/
def maskRow : Nat → List Nat
  | 0 => [0, 4, 3, 7, 6, 2, 1, 5]
  | 1 => [1, 3, 7, 5, 0, 6, 2, 4]
  | 2 => [2, 7, 5, 4, 1, 0, 6, 3]
  | 3 => [3, 6, 0, 1, 4, 5, 7, 2]
  | 4 => [4, 2, 6, 0, 5, 7, 3, 1]
  | 5 => [5, 1, 2, 6, 7, 3, 4, 0]
  | 6 => [6, 5, 4, 3, 2, 1, 0, 7]
  | _ => [7, 0, 1, 2, 3, 4, 5, 6]

def maskBitT (c j : Nat) : Nat := (maskRow c).getD j 0

/-- Multipliers of `sievingPrime` in the eight offsets of the unrolled
fast-path body (`p[sievingPrime * fmulT j + faddT c j]`). -/
def fmulT : Nat → Nat
  | 0 => 0
  | 1 => 6
  | 2 => 10
  | 3 => 12
  | 4 => 16
  | 5 => 18
  | 6 => 22
  | _ => 28

/-- Additive constants of the eight offsets of the unrolled fast-path body,
one row per class, transcribed from EratSmall.cpp. -/
def faddRow : Nat → List Nat
  | 0 => [0, 1, 2, 2, 3, 4, 5, 6]
  | 1 => [0, 2, 3, 4, 6, 6, 8, 10]
  | 2 => [0, 2, 4, 5, 7, 8, 9, 12]
  | 3 => [0, 3, 6, 7, 9, 10, 12, 16]
  | 4 => [0, 4, 6, 8, 10, 11, 14, 18]
  | 5 => [0, 5, 8, 9, 12, 14, 17, 22]
  | 6 => [0, 6, 10, 12, 16, 18, 22, 27]
  | _ => [0, 1, 1, 1, 1, 1, 1, 1]

def faddT (c j : Nat) : Nat := (faddRow c).getD j 0

/-- A sieving prime record (SievingPrime in Bucket.hpp, fields as used by
EratSmall.cpp): the prime divided by 30, the byte offset of the next
multiple, and the wheel index. -/
structure SPrime where
  sievingPrime : Nat
  multipleIndex : Nat
  wheelIndex : Nat
deriving DecidableEq

/-- One strike: clear bit `b` of the byte at index `i` (`*p &= BITb`). -/
def strikeB (sv : List Nat) (i b : Nat) : List Nat :=
  sv.set i (sv.getD i 0 &&& BITm b)

/-- Apply a list of strikes (position, bit) in order. -/
def applyStrikes (sv : List Nat) (l : List (Nat × Nat)) : List Nat :=
  l.foldl (fun acc ib => strikeB acc ib.1 ib.2) sv

/-- Reference semantics of the per-prime strike loop of
`EratSmall::crossOff(uint8_t*, uint8_t*)`: starting from byte position `p` in
phase `j` of class `c`, emit the (position, bit) strikes one by one while the
position is below `n`, and return them together with the final
(multipleIndex, wheelIndex) saved by CHECK_FINISHED.  Fuel-indexed; one unit
of fuel per strike. -/
def simpleListF : Nat → Nat → Nat → Nat → Nat → Nat → Option (List (Nat × Nat) × Nat × Nat)
  | 0, _, _, _, _, _ => none
  | fuel + 1, n, s, c, j, p =>
    if n ≤ p then some ([], p - n, 8 * c + j % 8)
    else
      match simpleListF fuel n s c (j % 8 + 1) (p + adv s c (j % 8)) with
      | none => none
      | some (l, st) => some ((p, maskBitT c (j % 8)) :: l, st)

/-- The phases still to run when the switch enters the strike loop at
phase `j` (case labels `8*c + j .. 8*c + 7`). -/
def phasesFrom (j : Nat) : List Nat := (List.range 8).drop j

/-- The slow path of one wheel revolution: run the given phases in order;
before each strike, CHECK_FINISHED saves (p - sieveEnd, 8*c + j) and stops if
`p` has reached the segment end `n`.  The `Bool` accumulates the in-range
instrumentation of every executed write. -/
def runPhases (n s c : Nat) : List Nat → Nat → List Nat → Bool →
    ((Nat × Nat) × List Nat × Bool) ⊕ (Nat × List Nat × Bool)
  | [], p, sv, ok => .inr (p, sv, ok)
  | j :: js, p, sv, ok =>
    if n ≤ p then .inl ((p - n, 8 * c + j), sv, ok)
    else runPhases n s c js (p + adv s c j) (strikeB sv p (maskBitT c j))
      (ok && decide (p < n))

/-- The eight strikes of one unrolled fast-path iteration, as
(position, bit) pairs. -/
def revList (s c p : Nat) : List (Nat × Nat) :=
  (List.range 8).map fun j => (p + s * fmulT j + faddT c j, maskBitT c j)

/-- One unrolled fast-path body: the eight writes, with no bounds checks;
the `Bool` records whether every write index was below `n`. -/
def fastBody (n s c p : Nat) (sv : List Nat) (ok : Bool) : List Nat × Bool :=
  (applyStrikes sv (revList s c p),
   ok && (revList s c p).all fun ib => decide (ib.1 < n))

/-- `loopEnd = max(sieveEnd, sieve + maxLoopDist) - maxLoopDist`, in indices
relative to the segment start. -/
def loopEndOf (n mld : Nat) : Nat := max n mld - mld

/-- The fast loop `for (; p < loopEnd; p += sievingPrime * 30 + clsRes c)`,
fuel-indexed. -/
def fastLoopF : Nat → Nat → Nat → Nat → Nat → Nat → List Nat → Bool →
    Option (Nat × List Nat × Bool)
  | 0, _, _, _, _, _, _, _ => none
  | fuel + 1, n, s, c, le, p, sv, ok =>
    if p < le then
      let sb := fastBody n s c p sv ok
      fastLoopF fuel n s c le (p + (s * 30 + clsRes c)) sb.1 sb.2
    else some (p, sv, ok)

/-- The outer `for (;;)` loop of one class block, entered at phase 0:
drain the fast loop, then run the eight slow phases; if CHECK_FINISHED fires
the final state is returned, otherwise loop.  Fuel-indexed. -/
def outerF : Nat → Nat → Nat → Nat → Nat → Nat → List Nat → Bool →
    Option ((Nat × Nat) × List Nat × Bool)
  | 0, _, _, _, _, _, _, _ => none
  | fuel + 1, n, s, c, le, p, sv, ok =>
    match fastLoopF (le + 1) n s c le p sv ok with
    | none => none
    | some (p1, sv1, ok1) =>
      match runPhases n s c (phasesFrom 0) p1 sv1 ok1 with
      | .inl (st, sv2, ok2) => some (st, sv2, ok2)
      | .inr (p2, sv2, ok2) => outerF fuel n s c le p2 sv2 ok2

/-- `EratSmall::crossOff(uint8_t* sieve, uint8_t* sieveEnd)` restricted to a
single sieving prime: the labeled-switch strike machine.  `n` is the segment
length in bytes; the returned record carries the updated
(multipleIndex, wheelIndex).  The `Bool` output is the in-range
instrumentation of all performed writes (the fuel given to `outerF` is
sufficient, see `outerF_fuel_isSome`; the `none` fallback is unreachable). -/
def crossOffPrime (n : Nat) (pr : SPrime) (sv : List Nat) (ok : Bool) :
    SPrime × List Nat × Bool :=
  let s := pr.sievingPrime
  let wi := pr.wheelIndex &&& 63
  let c := wi / 8
  let j := wi % 8
  let le := loopEndOf n (s * 28 + 27)
  let go : Nat → List Nat → Bool → SPrime × List Nat × Bool := fun p1 sv1 ok1 =>
    match outerF (n + 2) n s c le p1 sv1 ok1 with
    | some (st, sv2, ok2) => (⟨s, st.1, st.2⟩, sv2, ok2)
    | none => (⟨s, p1, 8 * c⟩, sv1, false)
  if j = 0 then go pr.multipleIndex sv ok
  else
    match runPhases n s c (phasesFrom j) pr.multipleIndex sv ok with
    | .inl (st, sv1, ok1) => (⟨s, st.1, st.2⟩, sv1, ok1)
    | .inr (p1, sv1, ok1) => go p1 sv1 ok1

/-- `EratSmall::crossOff(uint8_t*, uint8_t*)`: iterate the strike machine
over the stored sieving primes, updating each record in place. -/
def crossOffSeg (n : Nat) : List SPrime → List Nat → Bool →
    List SPrime × List Nat × Bool
  | [], sv, ok => ([], sv, ok)
  | pr :: ps, sv, ok =>
    let r := crossOffPrime n pr sv ok
    let rest := crossOffSeg n ps r.2.1 r.2.2
    (r.1 :: rest.1, rest.2)

/-- The EratSmall instance state (fields of EratSmall.hpp as used by
EratSmall.cpp; the header itself is not among the sources). -/
structure EratSmall where
  enabled : Bool := false
  maxPrime : Nat := 0
  l1CacheSize : Nat := 0
  stop : Nat := 0
  primes : List SPrime := []
deriving DecidableEq

/-- `EratSmall::init(stop, l1CacheSize, maxPrime)`: validate
`maxPrime <= l1CacheSize * 3` (throwing a primesieve_error otherwise, before
any state is modified), then record the parameters.  The capacity
reservation `primes_.reserve(primeCountApprox(maxPrime))` has no observable
effect and is not modelled. -/
def EratSmall.init (es : EratSmall) (stop l1CacheSize maxPrime : Nat) :
    Except String EratSmall :=
  if l1CacheSize * 3 < maxPrime then
    .error "EratSmall: maxPrime > l1CacheSize * 3"
  else
    .ok { es with enabled := true, maxPrime := maxPrime,
                  l1CacheSize := l1CacheSize, stop := stop }

/-- Next integer `>= m` coprime to 30 (31 units of fuel always suffice). -/
def nextCop : Nat → Nat → Nat
  | 0, m => m
  | fuel + 1, m => if Nat.gcd m 30 = 1 then m else nextCop fuel (m + 1)

/-- Modelled from the spec: Wheel.hpp is not among the sources.  Per spec
section 4.3, the Wheel returns the least multiple `q * m` of the prime `q`
at or beyond `segmentLow` that is coprime to 30 itself; adapted to the byte
layout actually used by EratSmall.cpp (bit offsets 7..31 within a byte), the
least such multiple representable in the segment is the least one
`>= segmentLow + 7`. -/
def wheelFirst (q L : Nat) : Nat := nextCop 31 ((L + 6) / q + 1)

/-- Phase index of a wheel multiplier residue (position in `mres`). -/
def phaseIdx (r : Nat) : Nat :=
  if r = 1 then 0
  else if r = 7 then 1
  else if r = 11 then 2
  else if r = 13 then 3
  else if r = 17 then 4
  else if r = 19 then 5
  else if r = 23 then 6
  else 7

/-- Class index of a prime residue mod 30 (position in `clsRes`). -/
def clsIdx (r : Nat) : Nat :=
  if r = 7 then 0
  else if r = 11 then 1
  else if r = 13 then 2
  else if r = 17 then 3
  else if r = 19 then 4
  else if r = 23 then 5
  else if r = 29 then 6
  else 7

/-- Modelled from the spec: the Wheel consultation of
`EratSmall::addSievingPrime` (spec section 4.3, Wheel.hpp not among the
sources).  The initial record for prime `q` and segment base `L` points at
the least multiple `q * m` (with `m` coprime to 30) representable in the
segment, i.e. the byte `(q * m - L - 7) / 30` of its bit, in the phase of
`m mod 30` within the class of `q mod 30`. -/
def Wheel.addSievingPrime (q L : Nat) : SPrime :=
  let m := wheelFirst q L
  ⟨q / 30, (q * m - L - 7) / 30, 8 * clsIdx (q % 30) + phaseIdx (m % 30)⟩

/-- `EratSmall::addSievingPrime` followed by `storeSievingPrime`: append the
record computed by the Wheel (`sievingPrime = prime / 30`). -/
def EratSmall.addSievingPrime (es : EratSmall) (q L : Nat) : EratSmall :=
  { es with primes := es.primes ++ [Wheel.addSievingPrime q L] }

/-- Split a sieve into `l1`-byte sub-blocks (the cache tiling of
`EratSmall::crossOff(uint8_t* sieve, uint64_t sieveSize)`).  The degenerate
`l1 = 0` case, an endless loop in C++, is modelled as a single block. -/
def chunksOf (l1 : Nat) : List Nat → List (List Nat)
  | [] => []
  | x :: rest =>
    if l1 = 0 then [x :: rest]
    else (x :: rest).take l1 :: chunksOf l1 ((x :: rest).drop l1)
termination_by sv => sv.length
decreasing_by
  simp only [List.length_drop, List.length_cons]
  omega

/-- Run `crossOffSeg` over successive sub-blocks, carrying the prime
records from block to block. -/
def crossOffChunks (ps : List SPrime) : List (List Nat) → List SPrime × List Nat
  | [] => (ps, [])
  | ch :: chs =>
    let r := crossOffSeg ch.length ps ch true
    let rest := crossOffChunks r.1 chs
    (rest.1, r.2.1 ++ rest.2)

/-- `EratSmall::crossOff(uint8_t* sieve, uint64_t sieveSize)`: cross off the
multiples of every stored sieving prime from the sieve, tiling it into
`l1CacheSize`-byte sub-blocks. -/
def EratSmall.crossOff (es : EratSmall) (sv : List Nat) : EratSmall × List Nat :=
  let r := crossOffChunks es.primes (chunksOf es.l1CacheSize sv)
  ({ es with primes := r.1 }, r.2)

/-- The static pre-sieve lookup table of PreSieve.cpp (`buffer_7_11_13`):
7*11*13 = 1001 bytes, pre-sieved with the primes {7, 11, 13}, covering
30030 integers. -/
def buffer_7_11_13 : List Nat := [
  0xf8, 0xef, 0x77, 0x3f, 0xdb, 0xed, 0x9e, 0xfc, 0xea, 0x37, 0xaf, 0xf9, 0xf5, 0xd3,
  0x7e, 0x4f, 0x77, 0x9e, 0xeb, 0xf9, 0xdd, 0xee, 0xad, 0x77, 0xb7, 0x73, 0xd9, 0xdf,
  0x3e, 0xef, 0x53, 0xaf, 0xeb, 0xfd, 0xde, 0xb6, 0x6f, 0x57, 0xb7, 0xba, 0xfd, 0x5b,
  0xfe, 0xcf, 0x65, 0xbf, 0xf1, 0x7c, 0x9f, 0xfe, 0xae, 0x77, 0xbb, 0xfb, 0x6d, 0xdd,
  0xde, 0xe7, 0x77, 0x9d, 0xfa, 0xbc, 0xdf, 0xfa, 0xe7, 0x63, 0xbd, 0x7b, 0xf5, 0x5f,
  0xce, 0xef, 0x34, 0xbe, 0xbb, 0xfd, 0xcf, 0xf4, 0xeb, 0x77, 0x3f, 0xdb, 0xdd, 0x8e,
  0xfe, 0xe9, 0x76, 0xaf, 0xf9, 0xfd, 0xd7, 0x7a, 0xcf, 0x77, 0xbe, 0xdb, 0xe9, 0xdf,
  0xec, 0xec, 0x37, 0xb7, 0x7b, 0xd5, 0xdb, 0xbe, 0x6f, 0x73, 0x9f, 0xeb, 0xfd, 0xdd,
  0xf6, 0x2f, 0x57, 0xbf, 0xb2, 0xf9, 0xdb, 0x7e, 0xef, 0x55, 0xaf, 0xf3, 0x7d, 0xde,
  0xbe, 0xae, 0x77, 0xb3, 0xfb, 0xed, 0x5d, 0xfe, 0xc7, 0x67, 0x9f, 0xf9, 0xbc, 0x9f,
  0xfa, 0xef, 0x67, 0xb9, 0xfb, 0x75, 0x5f, 0xde, 0xef, 0x36, 0xbd, 0xfa, 0xbd, 0xcf,
  0xfc, 0xe7, 0x73, 0x3f, 0x5b, 0xfd, 0x9e, 0xee, 0xeb, 0x75, 0xae, 0xb9, 0xfd, 0xd7,
  0x76, 0xcb, 0x77, 0x3e, 0xfb, 0xd9, 0xcf, 0xee, 0xed, 0x76, 0xb7, 0x7b, 0xdd, 0xd7,
  0xba, 0xef, 0x73, 0xbf, 0xcb, 0xed, 0xdf, 0xf4, 0x6e, 0x17, 0xbf, 0xba, 0xf5, 0xdb,
  0xfe, 0x6f, 0x75, 0x9f, 0xe3, 0x7d, 0xdd, 0xfe, 0xae, 0x77, 0xbb, 0xf3, 0xe9, 0xdd,
  0x7e, 0xe7, 0x57, 0x8f, 0xfb, 0xbc, 0xde, 0xba, 0xef, 0x67, 0xb5, 0xfb, 0xf5, 0x5f,
  0xde, 0xcf, 0x26, 0xbf, 0xf9, 0xfc, 0x8f, 0xfc, 0xef, 0x77, 0x3b, 0xdb, 0x7d, 0x9e,
  0xde, 0xeb, 0x77, 0xad, 0xf8, 0xbd, 0xd7, 0x7e, 0xc7, 0x73, 0xbe, 0x7b, 0xf9, 0xdf,
  0xee, 0xed, 0x75, 0xb6, 0x3b, 0xdd, 0xdf, 0xb6, 0xeb, 0x73, 0x3f, 0xeb, 0xdd, 0xcf,
  0xf6, 0x6d, 0x56, 0xbf, 0xba, 0xfd, 0xd3, 0xfa, 0xef, 0x75, 0xbf, 0xd3, 0x6d, 0xdf,
  0xfc, 0xae, 0x37, 0xbb, 0xfb, 0xe5, 0xd9, 0xfe, 0x67, 0x77, 0x9f, 0xeb, 0xbc, 0xdd,
  0xfa, 0xaf, 0x67, 0xbd, 0xf3, 0xf1, 0x5f, 0x5e, 0xef, 0x16, 0xaf, 0xfb, 0xfd, 0xce,
  0xbc, 0xef, 0x77, 0x37, 0xdb, 0xfd, 0x1e, 0xfe, 0xcb, 0x67, 0xaf, 0xf9, 0xfc, 0x97,
  0x7e, 0xcf, 0x77, 0xba, 0xfb, 0x79, 0xdf, 0xce, 0xed, 0x77, 0xb5, 0x7a, 0x9d, 0xdf,
  0xbe, 0xe7, 0x73, 0xbf, 0x6b, 0xfd, 0xdf, 0xe6, 0x6f, 0x55, 0xbe, 0xba, 0xfd, 0xdb,
  0xf6, 0xeb, 0x75, 0x3f, 0xf3, 0x5d, 0xcf, 0xfe, 0xac, 0x76, 0xbb, 0xfb, 0xed, 0xd5,
  0xfa, 0xe7, 0x77, 0x9f, 0xdb, 0xac, 0xdf, 0xf8, 0xee, 0x27, 0xbd, 0xfb, 0xf5, 0x5b,
  0xde, 0x6f, 0x36, 0x9f, 0xeb, 0xfd, 0xcd, 0xfc, 0xaf, 0x77, 0x3f, 0xd3, 0xf9, 0x9e,
  0x7e, 0xeb, 0x57, 0xaf, 0xf9, 0xfd, 0xd6, 0x3e, 0xcf, 0x77, 0xb6, 0xfb, 0xf9, 0x5f,
  0xee, 0xcd, 0x67, 0xb7, 0x79, 0xdc, 0x9f, 0xbe, 0xef, 0x73, 0xbb, 0xeb, 0x7d, 0xdf,
  0xd6, 0x6f, 0x57, 0xbd, 0xba, 0xbd, 0xdb, 0xfe, 0xe7, 0x71, 0xbf, 0x73, 0x7d, 0xdf,
  0xee, 0xae, 0x75, 0xba, 0xbb, 0xed, 0xdd, 0xf6, 0xe3, 0x77, 0x1f, 0xfb, 0x9c, 0xcf,
  0xfa, 0xed, 0x66, 0xbd, 0xfb, 0xf5, 0x57, 0xda, 0xef, 0x36, 0xbf, 0xdb, 0xed, 0xcf,
  0xfc, 0xee, 0x37, 0x3f, 0xdb, 0xf5, 0x9a, 0xfe, 0x6b, 0x77, 0x8f, 0xe9, 0xfd, 0xd5,
  0x7e, 0x8f, 0x77, 0xbe, 0xf3, 0xf9, 0xdf, 0x6e, 0xed, 0x57, 0xa7, 0x7b, 0xdd, 0xde,
  0xbe, 0xef, 0x73, 0xb7, 0xeb, 0xfd, 0x5f, 0xf6, 0x4f, 0x47, 0xbf, 0xb8, 0xfc, 0x9b,
  0xfe, 0xef, 0x75, 0xbb, 0xf3, 0x7d, 0xdf, 0xde, 0xae, 0x77, 0xb9, 0xfa, 0xad, 0xdd,
  0xfe, 0xe7, 0x73, 0x9f, 0x7b, 0xbc, 0xdf, 0xea, 0xef, 0x65, 0xbc, 0xbb, 0xf5, 0x5f,
  0xd6, 0xeb, 0x36, 0x3f, 0xfb, 0xdd, 0xcf, 0xfc, 0xed, 0x76, 0x3f, 0xdb, 0xfd, 0x96,
  0xfa, 0xeb, 0x77, 0xaf, 0xd9, 0xed, 0xd7, 0x7c, 0xce, 0x37, 0xbe, 0xfb, 0xf1, 0xdb,
  0xee, 0x6d, 0x77, 0x97, 0x6b, 0xdd, 0xdd, 0xbe, 0xaf, 0x73, 0xbf, 0xe3, 0xf9, 0xdf,
  0x76, 0x6f, 0x57, 0xaf, 0xba, 0xfd, 0xda, 0xbe, 0xef, 0x75, 0xb7, 0xf3, 0x7d, 0x5f,
  0xfe, 0x8e, 0x67, 0xbb, 0xf9, 0xec, 0x9d, 0xfe, 0xe7, 0x77, 0x9b, 0xfb, 0x3c, 0xdf,
  0xda, 0xef, 0x67, 0xbd, 0xfa, 0xb5, 0x5f, 0xde, 0xe7, 0x32, 0xbf, 0x7b, 0xfd, 0xcf,
  0xec, 0xef, 0x75, 0x3e, 0x9b, 0xfd, 0x9e, 0xf6, 0xeb, 0x77, 0x2f, 0xf9, 0xdd, 0xc7,
  0x7e, 0xcd, 0x76, 0xbe, 0xfb, 0xf9, 0xd7, 0xea, 0xed, 0x77, 0xb7, 0x5b, 0xcd, 0xdf,
  0xbc, 0xee, 0x33, 0xbf, 0xeb, 0xf5, 0xdb, 0xf6, 0x6f, 0x57, 0x9f, 0xaa, 0xfd, 0xd9,
  0xfe, 0xaf, 0x75, 0xbf, 0xf3, 0x79, 0xdf, 0x7e, 0xae, 0x57, 0xab, 0xfb, 0xed, 0xdc,
  0xbe, 0xe7, 0x77, 0x97, 0xfb, 0xbc, 0x5f, 0xfa, 0xcf, 0x67, 0xbd, 0xf9, 0xf4, 0x1f,
  0xde, 0xef, 0x36, 0xbb, 0xfb, 0x7d, 0xcf, 0xdc, 0xef, 0x77, 0x3d, 0xda, 0xbd, 0x9e,
  0xfe, 0xe3, 0x73, 0xaf, 0x79, 0xfd, 0xd7, 0x6e, 0xcf, 0x75, 0xbe, 0xbb, 0xf9, 0xdf,
  0xe6, 0xe9, 0x77, 0x37, 0x7b, 0xdd, 0xcf, 0xbe, 0xed, 0x72, 0xbf, 0xeb, 0xfd, 0xd7,
  0xf2, 0x6f, 0x57, 0xbf, 0x9a, 0xed, 0xdb, 0xfc, 0xee, 0x35, 0xbf, 0xf3, 0x75, 0xdb,
  0xfe, 0x2e, 0x77, 0x9b, 0xeb, 0xed, 0xdd, 0xfe, 0xa7, 0x77, 0x9f, 0xf3, 0xb8, 0xdf,
  0x7a, 0xef, 0x47, 0xad, 0xfb, 0xf5, 0x5e, 0x9e, 0xef, 0x36, 0xb7, 0xfb, 0xfd, 0x4f,
  0xfc, 0xcf, 0x67, 0x3f, 0xd9, 0xfc, 0x9e, 0xfe, 0xeb, 0x77, 0xab, 0xf9, 0x7d, 0xd7,
  0x5e, 0xcf, 0x77, 0xbc, 0xfa, 0xb9, 0xdf, 0xee, 0xe5, 0x73, 0xb7, 0x7b, 0xdd, 0xdf,
  0xae, 0xef, 0x71, 0xbe, 0xab, 0xfd, 0xdf, 0xf6, 0x6b, 0x57, 0x3f, 0xba, 0xdd, 0xcb,
  0xfe, 0xed, 0x74, 0xbf, 0xf3, 0x7d, 0xd7, 0xfa, 0xae, 0x77, 0xbb, 0xdb, 0xed, 0xdd,
  0xfc, 0xe6, 0x37, 0x9f, 0xfb, 0xb4, 0xdb, 0xfa, 0x6f, 0x67, 0x9d, 0xeb, 0xf5, 0x5d,
  0xde, 0xaf, 0x36, 0xbf, 0xf3, 0xf9, 0xcf, 0x7c, 0xef, 0x57, 0x2f, 0xdb, 0xfd, 0x9e,
  0xbe, 0xeb, 0x77, 0xa7, 0xf9, 0xfd, 0x57, 0x7e, 0xcf, 0x67, 0xbe, 0xf9, 0xf8, 0x9f,
  0xee, 0xed, 0x77, 0xb3, 0x7b, 0x5d, 0xdf, 0x9e, 0xef, 0x73, 0xbd, 0xea, 0xbd, 0xdf,
  0xf6, 0x67, 0x53, 0xbf, 0x3a, 0xfd, 0xdb, 0xee, 0xef, 0x75, 0xbe, 0xb3, 0x7d, 0xdf,
  0xf6, 0xaa, 0x77, 0x3b, 0xfb, 0xcd, 0xcd, 0xfe, 0xe5, 0x76, 0x9f, 0xfb, 0xbc, 0xd7,
  0xfa, 0xef, 0x67, 0xbd, 0xdb, 0xe5, 0x5f, 0xdc, 0xee, 0x36, 0xbf, 0xfb, 0xf5, 0xcb,
  0xfc, 0x6f, 0x77, 0x1f, 0xcb, 0xfd, 0x9c, 0xfe, 0xab, 0x77, 0xaf, 0xf1, 0xf9, 0xd7,
  0x7e, 0xcf, 0x57, 0xae, 0xfb, 0xf9, 0xde, 0xae, 0xed, 0x77, 0xb7, 0x7b, 0xdd, 0x5f,
  0xbe, 0xcf, 0x63, 0xbf, 0xe9, 0xfc, 0x9f, 0xf6, 0x6f, 0x57, 0xbb, 0xba, 0x7d, 0xdb,
  0xde, 0xef, 0x75, 0xbd, 0xf2, 0x3d, 0xdf, 0xfe, 0xa6, 0x73, 0xbb, 0x7b, 0xed, 0xdd,
  0xee, 0xe7, 0x75, 0x9e, 0xbb, 0xbc, 0xdf, 0xf2, 0xeb, 0x67, 0x3d, 0xfb, 0xd5, 0x4f,
  0xde, 0xed, 0x36, 0xbf, 0xfb, 0xfd, 0xc7
]

/-- The prime sets assigned to the eight pre-sieve buffers
(`bufferPrimes` in PreSieve.cpp). -/
def bufferPrimes : Nat → List Nat
  | 0 => [7, 67, 71]
  | 1 => [11, 41, 73]
  | 2 => [13, 43, 59]
  | 3 => [17, 37, 53]
  | 4 => [19, 29, 61]
  | 5 => [23, 31, 47]
  | 6 => [79, 97]
  | _ => [83, 89]

/-- `buffersDist`: each byte represents an interval of 30 integers
(PreSieve.cpp); the sum of the spans of the eight buffers. -/
def buffersDist : Nat :=
  (7 * 67 * 71) * 30 +
  (11 * 41 * 73) * 30 +
  (13 * 43 * 59) * 30 +
  (17 * 37 * 53) * 30 +
  (19 * 29 * 61) * 30 +
  (23 * 31 * 47) * 30 +
  (79 * 97) * 30 +
  (83 * 89) * 30

/-- The PreSieve instance state: the eight period buffers (initially all
empty), the cumulative sieving distance, and the largest pre-sieving prime
(fields of PreSieve.hpp as used by PreSieve.cpp; the header itself is not
among the sources). -/
structure PreSieveT where
  buffers : List (List Nat)
  totalDist : Nat
  maxPrime : Nat
deriving DecidableEq

/-- A freshly constructed PreSieve object: eight empty buffers. -/
def PreSieveT.initial : PreSieveT := { buffers := List.replicate 8 [], totalDist := 0, maxPrime := 0 }

/-- One iteration of `PreSieve::initBuffers`: build buffer `i` by running the
EratSmall algorithm with the assigned primes over an all-ones array of
`product / 30` bytes, starting at `start = product`. -/
def initBuffer (i : Nat) : List Nat :=
  let primes := bufferPrimes i
  let product := primes.foldl (fun a q => a * q) 30
  let start := product
  let stop := start + product
  let size := product / 30
  let buf := List.replicate size 255
  match EratSmall.init {} stop size (primes.getLast?.getD 0) with
  | .error _ => buf
  | .ok es0 =>
    let es1 := primes.foldl (fun es q => EratSmall.addSievingPrime es q start) es0
    (EratSmall.crossOff es1 buf).2

/-- `PreSieve::initBuffers`: build all eight buffers and record the largest
pre-sieving prime. -/
def PreSieveT.initBuffers (ps : PreSieveT) : PreSieveT :=
  { ps with
    buffers := (List.range 8).map initBuffer,
    maxPrime := (List.range 8).foldl (fun a i => max a ((bufferPrimes i).getLast?.getD 0)) ps.maxPrime }

/-- `PreSieve::init(start, stop)`: return at once if the buffers are already
built; otherwise accumulate `dist = max(max(start, stop) - start,
floor(sqrt(stop)))` into `totalDist` and build the large buffers only when
`totalDist >= buffersDist * 20`.  (`(uint64_t) std::sqrt(stop)` is modelled
as `Nat.sqrt`, exact for the integers a double represents exactly.) -/
def PreSieveT.init (ps : PreSieveT) (start stop : Nat) : PreSieveT :=
  if ps.buffers.headD [] ≠ [] then ps
  else
    let dist := max (max start stop - start) (Nat.sqrt stop)
    let total := ps.totalDist + dist
    if total < buffersDist * 20 then { ps with totalDist := total }
    else PreSieveT.initBuffers { ps with totalDist := total }

/-- The tail of `PreSieve::preSieveSmall`: restart copying at the beginning
of the 1001-byte buffer (`for (i = sizeLeft; i + size < n; i += size)`
full copies, then the last remaining bytes). -/
def psTile (n i : Nat) : List Nat :=
  if i + 1001 < n then buffer_7_11_13.take 1001 ++ psTile n (i + 1001)
  else buffer_7_11_13.take (n - i)
termination_by n - i
decreasing_by omega

/-- `PreSieve::preSieveSmall(sieve, segmentLow)`: overwrite the sieve with
the slice of the periodic 1001-byte pattern starting at byte
`(segmentLow mod 30030) / 30`.  Only the length of the input sieve matters. -/
def preSieveSmall (sv : List Nat) (segmentLow : Nat) : List Nat :=
  let size := buffer_7_11_13.length
  let primeProduct := size * 30
  let i := segmentLow % primeProduct / 30
  let sizeLeft := size - i
  if sv.length ≤ sizeLeft then (buffer_7_11_13.drop i).take sv.length
  else (buffer_7_11_13.drop i).take sizeLeft ++ psTile sv.length sizeLeft

/-- `andBuffers`: output byte `t` is the bitwise AND of the bytes of the
eight buffers at their respective cursors plus `t` (the 255 identity models
reading `uint8` values, which are below 256). -/
def andBuffers (bufs : List (List Nat)) (pos : List Nat) (bytes : Nat) : List Nat :=
  (List.range bytes).map fun t =>
    (List.range bufs.length).foldl
      (fun a i => a &&& (bufs.getD i []).getD (pos.getD i 0 + t) 0) 255

/-- The while loop of `PreSieve::preSieveLarge`, fuel-indexed: copy
`bytesToCopy = min(sieve.size - offset, min over i of size_i - pos_i)` ANDed
bytes, advance the cursors, wrapping any cursor that reached its buffer
length back to 0. -/
def psLoop (bufs : List (List Nat)) : Nat → Nat → List Nat → List Nat → Option (List Nat)
  | 0, _, _, _ => none
  | fuel + 1, offset, pos, sv =>
    if sv.length ≤ offset then some sv
    else
      let btc := (List.range bufs.length).foldl
        (fun a i => min ((bufs.getD i []).length - pos.getD i 0) a) (sv.length - offset)
      let out := andBuffers bufs pos btc
      let sv1 := sv.take offset ++ out ++ sv.drop (offset + btc)
      let pos1 := (List.range bufs.length).map fun i =>
        if (bufs.getD i []).length ≤ pos.getD i 0 + btc then 0 else pos.getD i 0 + btc
      psLoop bufs fuel (offset + btc) pos1 sv1

/-- `PreSieve::preSieveLarge(sieve, segmentLow)`: initial cursors
`pos_i = (segmentLow mod (size_i * 30)) / 30`, then the copy loop.  The fuel
`sieve.length + 1` is sufficient once the buffers are built
(`psLoop_isSome`); the fallback is unreachable. -/
def preSieveLarge (ps : PreSieveT) (sv : List Nat) (segmentLow : Nat) : List Nat :=
  let pos := ps.buffers.map fun b => segmentLow % (b.length * 30) / 30
  (psLoop ps.buffers (sv.length + 1) 0 pos sv).getD sv

/-- `PreSieve::preSieve(sieve, segmentLow)`: delegate to the small or large
pre-sieve, then undo the crossing-off of the pre-sieving primes themselves
in the first bytes (49 = 7 * 7 is not a prime and stays crossed off). -/
def preSieve (ps : PreSieveT) (sv : List Nat) (segmentLow : Nat) : List Nat :=
  let sv1 := if ps.buffers.headD [] = [] then preSieveSmall sv segmentLow
             else preSieveLarge ps sv segmentLow
  let bit49 : Nat := 1 <<< 4
  let bit77 : Nat := 1 <<< 3
  let bit91 : Nat := 1 <<< 7
  let bit119 : Nat := 1 <<< 6
  let bit121 : Nat := 1 <<< 7
  let st := (sv1, 0)
  let st := if segmentLow < 30 then (st.1.set st.2 0xff, st.2 + 1) else st
  let st := if segmentLow < 60 then (st.1.set st.2 (0xff ^^^ bit49), st.2 + 1) else st
  let st := if segmentLow < 90 then (st.1.set st.2 (0xff ^^^ bit77 ^^^ bit91), st.2 + 1) else st
  let st := if segmentLow < 120 then (st.1.set st.2 (0xff ^^^ bit119 ^^^ bit121), st.2 + 1) else st
  st.1

/-! ### Fuel adequacy for the reference strike machine -/

theorem acT_zero_pos (c : Nat) : 1 ≤ acT c 0 := by
  rcases c with _ | _ | _ | _ | _ | _ | _ | _ | c <;> simp [acT, acRow]

theorem clsRes_pos (c : Nat) : 1 ≤ clsRes c := by
  rcases c with _ | _ | _ | _ | _ | _ | _ | _ | c <;> simp [clsRes]

/-- Termination measure of the strike machine: every strike decreases it. -/
def phiM (n p j : Nat) : Nat := 9 * (n - p) + (8 - j % 8) % 8 + 1

theorem phiM_step {n p : Nat} (s c j : Nat) (h : p < n) :
    phiM n (p + adv s c (j % 8)) (j % 8 + 1) < phiM n p j := by
  unfold phiM
  rcases Nat.eq_zero_or_pos (j % 8) with h0 | h1
  · have ha : 1 ≤ adv s c (j % 8) := by
      rw [h0]; exact le_trans (acT_zero_pos c) (Nat.le_add_left _ _)
    omega
  · have hj : j % 8 < 8 := Nat.mod_lt _ (by omega)
    omega

theorem simpleListF_isSome {fuel n s c j p : Nat} (hf : phiM n p j ≤ fuel) :
    (simpleListF fuel n s c j p).isSome = true := by
  induction fuel generalizing j p with
  | zero => unfold phiM at hf; omega
  | succ fuel ih =>
    rw [simpleListF]
    by_cases h : n ≤ p
    · simp [h]
    · simp only [if_neg h]
      have hst := phiM_step s c j (Nat.lt_of_not_le h)
      have h2 := ih (Nat.le_of_lt_succ (Nat.lt_of_lt_of_le hst hf))
      rcases ho : simpleListF fuel n s c (j % 8 + 1) (p + adv s c (j % 8)) with _ | ⟨l, st⟩
      · rw [ho] at h2; simp at h2
      · simp [ho]

theorem simpleListF_mono {fuel fuel' n s c j p : Nat} {r} (hle : fuel ≤ fuel')
    (h : simpleListF fuel n s c j p = some r) :
    simpleListF fuel' n s c j p = some r := by
  induction fuel generalizing fuel' j p r with
  | zero => simp [simpleListF] at h
  | succ fuel ih =>
    rcases fuel' with _ | fuel'
    · omega
    rw [simpleListF] at h ⊢
    by_cases hn : n ≤ p
    · simpa [hn] using h
    · simp only [if_neg hn] at h ⊢
      rcases ho : simpleListF fuel n s c (j % 8 + 1) (p + adv s c (j % 8)) with _ | ⟨l, st⟩
      · rw [ho] at h; simp at h
      · rw [ho] at h
        rw [ih (by omega) ho]
        exact h

/-- The total reference strike machine (the fuel `phiM n p j` suffices). -/
def simpleL (n s c j p : Nat) : List (Nat × Nat) × Nat × Nat :=
  (simpleListF (phiM n p j) n s c j p).getD ([], 0, 0)

theorem simpleListF_eq_simpleL {fuel n s c j p : Nat} (hf : phiM n p j ≤ fuel) :
    simpleListF fuel n s c j p = some (simpleL n s c j p) := by
  have h1 := @simpleListF_isSome (phiM n p j) n s c j p (le_refl _)
  rcases ho : simpleListF (phiM n p j) n s c j p with _ | r
  · rw [ho] at h1; simp at h1
  · rw [simpleL, ho]
    exact simpleListF_mono hf ho

theorem simpleL_base {n s c j p : Nat} (h : n ≤ p) :
    simpleL n s c j p = ([], p - n, 8 * c + j % 8) := by
  have hthis := @simpleListF_eq_simpleL (phiM n p j) n s c j p (le_refl _)
  have hp : phiM n p j = 9 * (n - p) + (8 - j % 8) % 8 + 1 := rfl
  rw [hp, simpleListF, if_pos h] at hthis
  exact (Option.some_inj.mp hthis).symm

theorem simpleL_step {n s c j p : Nat} (h : p < n) :
    simpleL n s c j p =
      ((p, maskBitT c (j % 8)) :: (simpleL n s c (j % 8 + 1) (p + adv s c (j % 8))).1,
       (simpleL n s c (j % 8 + 1) (p + adv s c (j % 8))).2) := by
  have hst := phiM_step s c j h
  have h1 := @simpleListF_eq_simpleL (phiM n p j) n s c j p (le_refl _)
  have hp : phiM n p j = 9 * (n - p) + (8 - j % 8) % 8 + 1 := rfl
  rw [hp, simpleListF, if_neg (Nat.not_le_of_lt h)] at h1
  rw [@simpleListF_eq_simpleL (9 * (n - p) + (8 - j % 8) % 8) n s c (j % 8 + 1)
    (p + adv s c (j % 8)) (by omega)] at h1
  exact (Option.some_inj.mp h1).symm

/-! ### Decidable facts about the wheel tables -/

theorem maskBitT_lt : ∀ c < 8, ∀ j < 8, maskBitT c j < 8 := by decide

theorem rOff_range : ∀ b < 8, 7 ≤ rOff b ∧ rOff b ≤ 31 := by decide

theorem rOff_inj : ∀ b1 < 8, ∀ b2 < 8, rOff b1 = rOff b2 → b1 = b2 := by decide

theorem mres_phase : ∀ r < 30, Nat.gcd r 30 = 1 → mres (phaseIdx r) = r ∧ phaseIdx r < 8 := by
  decide

theorem phase_mres : ∀ jv < 8, phaseIdx (mres jv) = jv := by decide

theorem mres_gcd : ∀ jv < 8, Nat.gcd (mres jv) 30 = 1 := by decide

theorem offset_cong : ∀ c < 8, ∀ jv < 8,
    (clsRes c * mres jv) % 30 = rOff (maskBitT c jv) % 30 := by decide

theorem advance_off : ∀ c < 8, ∀ jv < 8,
    rOff (maskBitT c jv) + clsRes c * amT jv =
      30 * acT c jv + rOff (maskBitT c ((jv + 1) % 8)) := by decide

theorem no_skip : ∀ jv < 8, ∀ t < 8, 0 < t → t < amT jv →
    Nat.gcd ((mres jv + t) % 30) 30 ≠ 1 := by decide

theorem mres_next : ∀ jv < 8, (mres jv + amT jv) % 30 = mres ((jv + 1) % 8) := by decide

theorem amT_le6 (jv : Nat) : amT jv ≤ 6 := by
  rcases jv with _ | _ | _ | _ | _ | _ | _ | _ | jv <;> simp [amT]

theorem mres_lt (jv : Nat) : mres jv < 30 := by
  rcases jv with _ | _ | _ | _ | _ | _ | _ | _ | jv <;> simp [mres]

theorem clsRes_lt (c : Nat) : clsRes c < 30 := by
  rcases c with _ | _ | _ | _ | _ | _ | _ | _ | c <;> simp [clsRes]

theorem gcd_mod30 (m : Nat) : Nat.gcd m 30 = Nat.gcd (m % 30) 30 := by
  rw [Nat.gcd_comm, Nat.gcd_rec]

theorem next_cop_ge {m mm jv : Nat} (hjv : jv < 8) (hm30 : m % 30 = mres jv)
    (h1 : m < mm) (h2 : Nat.gcd mm 30 = 1) : m + amT jv ≤ mm := by
  by_contra hcon
  push_neg at hcon
  have ht8 : mm - m < 8 := by have := amT_le6 jv; omega
  have hmod : mm % 30 = (mres jv + (mm - m)) % 30 := by
    have h3 := mres_lt jv
    omega
  have := no_skip jv hjv (mm - m) ht8 (by omega) (by omega)
  rw [← hmod] at this
  rw [gcd_mod30] at h2
  exact this h2

/-- Exact byte position of a multiple: with the segment base a multiple of
30 and the in-byte offset congruent mod 30, the division is exact. -/
theorem pos_exact {L X p o : Nat} (hL : L % 30 = 0) (hge : L + 7 ≤ X)
    (hp : p = (X - L - 7) / 30)
    (ho7 : 7 ≤ o) (ho31 : o ≤ 31) (hcong : X % 30 = o % 30) :
    X = L + 30 * p + o := by
  omega

/-- Full characterization of the reference strike machine: starting at the
wheel state of the multiple `q * m`, the emitted strikes are exactly the
bits of the multiples `q * mm` (`mm` coprime to 30, `mm >= m`) whose byte
index is below `n`, and the final (multipleIndex, wheelIndex) is the wheel
state of the first such multiple at or beyond byte `n`, relative to the
next segment. -/
theorem simpleListF_char {fuel n s c j p L m q : Nat}
    (hc : c < 8) (hq : q = 30 * s + clsRes c) (hL : L % 30 = 0)
    (hm : Nat.gcd m 30 = 1) (hj : j % 8 = phaseIdx (m % 30))
    (hge : L + 7 ≤ q * m)
    (hp : p = (q * m - L - 7) / 30)
    (hfuel : phiM n p j ≤ fuel) :
    ∃ l mi wi, simpleListF fuel n s c j p = some (l, mi, wi) ∧
      (∀ k b, (k, b) ∈ l ↔ k < n ∧ b < 8 ∧
        ∃ mm, m ≤ mm ∧ Nat.gcd mm 30 = 1 ∧ q * mm = L + 30 * k + rOff b) ∧
      ∃ mm, m ≤ mm ∧ Nat.gcd mm 30 = 1 ∧ L + 30 * n + 7 ≤ q * mm ∧
        (∀ t, m ≤ t → t < mm → Nat.gcd t 30 = 1 → q * t < L + 30 * n + 7) ∧
        mi = (q * mm - L - 7) / 30 - n ∧ wi = 8 * c + phaseIdx (mm % 30) := by
  induction fuel generalizing j p m with
  | zero => unfold phiM at hfuel; omega
  | succ fuel ih =>
    have hjv : j % 8 < 8 := Nat.mod_lt _ (by omega)
    have hq30 : q % 30 = clsRes c := by
      have := clsRes_lt c
      omega
    have hm30 : m % 30 = mres (j % 8) := by
      rw [hj]
      exact (mres_phase (m % 30) (Nat.mod_lt _ (by omega)) ((gcd_mod30 m) ▸ hm)).1.symm
    have homask : maskBitT c (j % 8) < 8 := maskBitT_lt c hc _ hjv
    have ho7 : 7 ≤ rOff (maskBitT c (j % 8)) := (rOff_range _ homask).1
    have ho31 : rOff (maskBitT c (j % 8)) ≤ 31 := (rOff_range _ homask).2
    have hcong : (q * m) % 30 = rOff (maskBitT c (j % 8)) % 30 := by
      rw [Nat.mul_mod, hq30, hm30]
      exact offset_cong c hc _ hjv
    have hex : q * m = L + 30 * p + rOff (maskBitT c (j % 8)) :=
      pos_exact hL hge hp ho7 ho31 hcong
    rw [simpleListF]
    by_cases hnp : n ≤ p
    · refine ⟨[], p - n, 8 * c + j % 8, by rw [if_pos hnp], ?_, ?_⟩
      · intro k b
        constructor
        · intro h
          exact absurd h (List.not_mem_nil _)
        · rintro ⟨hk, hb, mm, hmm, hgcd, heq⟩
          have h1 : q * m ≤ q * mm := Nat.mul_le_mul (le_refl q) hmm
          have h2 : rOff b ≤ 31 := (rOff_range b hb).2
          omega
      · refine ⟨m, le_refl m, hm, by omega, ?_, by omega, by rw [hj]⟩
        intro t h1 h2
        omega
    · push_neg at hnp
      rw [if_neg (by omega)]
      -- facts about the next multiple m + amT (j % 8)
      have hjv1 : (j % 8 + 1) % 8 < 8 := Nat.mod_lt _ (by omega)
      have ho2mask : maskBitT c ((j % 8 + 1) % 8) < 8 := maskBitT_lt c hc _ hjv1
      have ho27 : 7 ≤ rOff (maskBitT c ((j % 8 + 1) % 8)) := (rOff_range _ ho2mask).1
      have ho231 : rOff (maskBitT c ((j % 8 + 1) % 8)) ≤ 31 := (rOff_range _ ho2mask).2
      have hamle := amT_le6 (j % 8)
      have hmreslt := mres_lt (j % 8)
      have hmod2 : (m + amT (j % 8)) % 30 = mres ((j % 8 + 1) % 8) := by
        have h1 := mres_next _ hjv
        omega
      have hm2 : Nat.gcd (m + amT (j % 8)) 30 = 1 := by
        rw [gcd_mod30, hmod2]
        exact mres_gcd _ hjv1
      have hj2 : (j % 8 + 1) % 8 = phaseIdx ((m + amT (j % 8)) % 30) := by
        rw [hmod2, phase_mres _ hjv1]
      have hge2 : L + 7 ≤ q * (m + amT (j % 8)) :=
        le_trans hge (Nat.mul_le_mul (le_refl q) (by omega))
      have he1 : q * (m + amT (j % 8)) =
          q * m + 30 * (s * amT (j % 8)) + clsRes c * amT (j % 8) := by
        rw [hq]; ring
      have hF2 := advance_off c hc _ hjv
      have hadv : adv s c (j % 8) = s * amT (j % 8) + acT c (j % 8) := rfl
      have hqm2 : q * (m + amT (j % 8)) =
          L + 30 * (p + adv s c (j % 8)) + rOff (maskBitT c ((j % 8 + 1) % 8)) := by
        omega
      have hp2 : p + adv s c (j % 8) = (q * (m + amT (j % 8)) - L - 7) / 30 := by
        omega
      have hfl2 : phiM n (p + adv s c (j % 8)) (j % 8 + 1) ≤ fuel :=
        Nat.le_of_lt_succ (Nat.lt_of_lt_of_le (phiM_step s c j hnp) hfuel)
      obtain ⟨l, mi, wi, hrun, hmem, mm, hmmle, hmmgcd, hmmge, hmmmin, hmi, hwi⟩ :=
        ih hm2 hj2 hge2 hp2 hfl2
      rw [hrun]
      refine ⟨(p, maskBitT c (j % 8)) :: l, mi, wi, rfl, ?_, ?_⟩
      · intro k b
        rw [List.mem_cons, hmem k b]
        constructor
        · rintro (heq | ⟨hk, hb, mm1, hmm1, hg1, he1'⟩)
          · have h1 : k = p ∧ b = maskBitT c (j % 8) := by
              have := Prod.mk.injEq k b p (maskBitT c (j % 8))
              rw [this] at heq
              exact heq
            refine ⟨by omega, by omega, m, le_refl m, hm, ?_⟩
            rw [h1.1, h1.2]
            exact hex
          · exact ⟨hk, hb, mm1, by omega, hg1, he1'⟩
        · rintro ⟨hk, hb, mm1, hmm1, hg1, he1'⟩
          rcases Nat.eq_or_lt_of_le hmm1 with heq1 | hlt1
          · left
            have hbr := rOff_range b hb
            have : q * mm1 = L + 30 * p + rOff (maskBitT c (j % 8)) := by
              rw [← heq1]; exact hex
            have hkp : k = p ∧ rOff b = rOff (maskBitT c (j % 8)) := by omega
            have hbb : b = maskBitT c (j % 8) := rOff_inj b hb _ homask hkp.2
            rw [hkp.1, hbb]
          · right
            exact ⟨hk, hb, mm1, next_cop_ge hjv hm30 hlt1 hg1, hg1, he1'⟩
      · refine ⟨mm, by omega, hmmgcd, hmmge, ?_, hmi, hwi⟩
        intro t ht1 ht2 ht3
        rcases Nat.eq_or_lt_of_le ht1 with heq1 | hlt1
        · rw [← heq1]
          omega
        · have := next_cop_ge hjv hm30 hlt1 ht3
          exact hmmmin t (by omega) ht2 ht3

theorem simpleListF_mod (fuel n s c : Nat) : ∀ j p,
    simpleListF fuel n s c j p = simpleListF fuel n s c (j % 8) p := by
  induction fuel with
  | zero => intro j p; rfl
  | succ fuel ih =>
    intro j p
    have h8 : j % 8 % 8 = j % 8 := by omega
    rw [simpleListF, simpleListF, h8]

theorem phiM_mod (n p j : Nat) : phiM n p (j % 8) = phiM n p j := by
  unfold phiM
  have h8 : j % 8 % 8 = j % 8 := by omega
  rw [h8]

theorem simpleL_mod (n s c j p : Nat) : simpleL n s c j p = simpleL n s c (j % 8) p := by
  have h1 := @simpleListF_eq_simpleL (phiM n p j) n s c j p (le_refl _)
  rw [simpleListF_mod] at h1
  rw [@simpleListF_eq_simpleL (phiM n p j) n s c (j % 8) p (by rw [phiM_mod])] at h1
  exact (Option.some_inj.mp h1).symm

theorem simpleL_base_fst {n s c j p : Nat} (h : n ≤ p) : (simpleL n s c j p).1 = [] := by
  rw [simpleL_base h]

theorem simpleL_base_snd {n s c j p : Nat} (h : n ≤ p) :
    (simpleL n s c j p).2 = (p - n, 8 * c + j % 8) := by
  rw [simpleL_base h]

theorem simpleL_step_fst {n s c j p : Nat} (h : p < n) :
    (simpleL n s c j p).1 =
      (p, maskBitT c (j % 8)) :: (simpleL n s c (j % 8 + 1) (p + adv s c (j % 8))).1 := by
  rw [simpleL_step h]

theorem simpleL_step_snd {n s c j p : Nat} (h : p < n) :
    (simpleL n s c j p).2 = (simpleL n s c (j % 8 + 1) (p + adv s c (j % 8))).2 := by
  rw [simpleL_step h]

/-- Resumability of the reference machine: running to bound `n` equals
running to bound `mid` and resuming from the saved (multipleIndex,
wheelIndex), with the second half interpreted relative to byte `mid`. -/
theorem simpleL_split {n mid s c : Nat} (hmid : mid ≤ n) :
    ∀ fuel j p, phiM n p j ≤ fuel →
    (simpleL n s c j p).1 =
        (simpleL mid s c j p).1 ++
          (simpleL (n - mid) s c (simpleL mid s c j p).2.2
            (simpleL mid s c j p).2.1).1.map (fun kb => (kb.1 + mid, kb.2)) ∧
    (simpleL n s c j p).2 =
        (simpleL (n - mid) s c (simpleL mid s c j p).2.2
          (simpleL mid s c j p).2.1).2 := by
  intro fuel
  induction fuel with
  | zero => intro j p hf; unfold phiM at hf; omega
  | succ fuel ih =>
    intro j p hf
    have h8 : (8 * c + j % 8) % 8 = j % 8 := by omega
    have h10 : j % 8 % 8 = j % 8 := by omega
    by_cases h1 : n ≤ p
    · -- everything is already finished
      rw [simpleL_base_snd (by omega : mid ≤ p), simpleL_base_fst (by omega : mid ≤ p)]
      rw [simpleL_mod (n - mid) s c (8 * c + j % 8), h8]
      rw [simpleL_base_fst h1, simpleL_base_snd h1]
      rw [simpleL_base_fst (by omega : n - mid ≤ p - mid)]
      rw [simpleL_base_snd (by omega : n - mid ≤ p - mid), h10]
      exact ⟨by simp, by rw [Prod.mk.injEq]; exact ⟨by omega, rfl⟩⟩
    · push_neg at h1
      have hstep := phiM_step s c j h1
      have hihr := ih (j % 8 + 1) (p + adv s c (j % 8)) (by omega)
      have h12 : (8 * c + (j % 8 + 1) % 8) % 8 = (j % 8 + 1) % 8 := by omega
      have h13 : (j % 8 + 1) % 8 % 8 = (j % 8 + 1) % 8 := by omega
      by_cases h2 : mid ≤ p
      · -- the first half has finished; the second half strikes now
        rw [simpleL_base_snd h2, simpleL_base_fst h2]
        rw [simpleL_mod (n - mid) s c (8 * c + j % 8), h8]
        rw [simpleL_step_fst h1, simpleL_step_snd h1]
        rw [simpleL_step_fst (by omega : p - mid < n - mid)]
        rw [simpleL_step_snd (by omega : p - mid < n - mid)]
        rw [h10]
        have h11 : p - mid + adv s c (j % 8) = p + adv s c (j % 8) - mid := by omega
        rw [h11]
        -- normalize the inner machine of hihr
        rw [simpleL_base_snd (by omega : mid ≤ p + adv s c (j % 8))] at hihr
        rw [simpleL_base_fst (by omega : mid ≤ p + adv s c (j % 8))] at hihr
        dsimp only at hihr
        rw [simpleL_mod (n - mid) s c (8 * c + (j % 8 + 1) % 8), h12] at hihr
        rw [simpleL_mod (n - mid) s c (j % 8 + 1)]
        constructor
        · rw [hihr.1]
          simp only [List.nil_append, List.map_cons]
          have h14 : p - mid + mid = p := by omega
          rw [h14]
        · exact hihr.2
      · -- both halves strike
        push_neg at h2
        rw [simpleL_step_fst h1, simpleL_step_snd h1]
        rw [simpleL_step_fst h2, simpleL_step_snd h2]
        constructor
        · rw [List.cons_append, hihr.1]
        · exact hihr.2

/-! ### Bridging the faithful crossOff code to the reference machine -/

theorem applyStrikes_cons (sv : List Nat) (x : Nat × Nat) (l : List (Nat × Nat)) :
    applyStrikes sv (x :: l) = applyStrikes (strikeB sv x.1 x.2) l := rfl

theorem applyStrikes_append (sv : List Nat) (A B : List (Nat × Nat)) :
    applyStrikes sv (A ++ B) = applyStrikes (applyStrikes sv A) B := by
  unfold applyStrikes
  rw [List.foldl_append]

theorem phasesFrom_cons : ∀ jv < 8, phasesFrom jv = jv :: phasesFrom (jv + 1) := by decide

theorem phasesFrom_eight : phasesFrom 8 = [] := rfl

theorem faddT_zero (c : Nat) : faddT c 0 = 0 := by
  rcases c with _ | _ | _ | _ | _ | _ | _ | _ | c <;> simp [faddT, faddRow]

theorem fmulT_le : ∀ jv < 8, fmulT jv ≤ 28 := by decide

theorem faddT_le : ∀ c < 8, ∀ jv < 8, faddT c jv ≤ 27 := by decide

theorem fprefix : ∀ c < 8, ∀ jv < 7,
    fmulT (jv + 1) = fmulT jv + amT jv ∧ faddT c (jv + 1) = faddT c jv + acT c jv := by decide

theorem fclose : ∀ c < 8, fmulT 7 + amT 7 = 30 ∧ faddT c 7 + acT c 7 = clsRes c := by decide

/-- Position of the `jv`-th strike of the unrolled fast-path body starting
at byte `p` (and, at `jv = 8`, the start of the next revolution). -/
def fpos (s c p jv : Nat) : Nat :=
  if jv < 8 then p + (s * fmulT jv + faddT c jv) else p + (s * 30 + clsRes c)

theorem fpos_lt {n s c p : Nat} (hc : c < 8) (hb : p + (s * 28 + 27) < n) :
    ∀ jv < 8, fpos s c p jv < n := by
  intro jv hjv
  have h1 := fmulT_le jv hjv
  have h2 := faddT_le c hc jv hjv
  have h3 : s * fmulT jv ≤ s * 28 := Nat.mul_le_mul (le_refl s) h1
  unfold fpos
  rw [if_pos hjv]
  omega

theorem fpos_step {s c p : Nat} (hc : c < 8) :
    ∀ jv < 8, fpos s c p jv + adv s c jv = fpos s c p (jv + 1) := by
  intro jv hjv
  unfold fpos
  rcases Nat.lt_or_ge jv 7 with h7 | h7
  · have hf := fprefix c hc jv h7
    have hm : s * fmulT (jv + 1) = s * fmulT jv + s * amT jv := by
      rw [hf.1, Nat.mul_add]
    rw [if_pos hjv, if_pos (by omega)]
    have hadv : adv s c jv = s * amT jv + acT c jv := rfl
    omega
  · have h77 : jv = 7 := by omega
    subst h77
    have hf := fclose c hc
    have hm : s * 30 = s * fmulT 7 + s * amT 7 := by
      rw [← hf.1, Nat.mul_add]
    rw [if_pos hjv, if_neg (by omega)]
    have hadv : adv s c 7 = s * amT 7 + acT c 7 := rfl
    omega

/-- One fast-path revolution equals eight single strikes of the reference
machine: if a whole revolution fits below `n`, the machine starting at
phase 0 emits exactly the eight `revList` strikes and continues at
`p + (s * 30 + clsRes c)`, phase 0. -/
theorem rev_unroll {n s c p : Nat} (hc : c < 8) (hb : p + (s * 28 + 27) < n) :
    (simpleL n s c 0 p).1 =
        revList s c p ++ (simpleL n s c 0 (p + (s * 30 + clsRes c))).1 ∧
    (simpleL n s c 0 p).2 = (simpleL n s c 0 (p + (s * 30 + clsRes c))).2 := by
  have key : ∀ d jv, jv + d = 8 →
      (simpleL n s c jv (fpos s c p jv)).1 =
          ((List.range 8).drop jv).map (fun t => (fpos s c p t, maskBitT c t)) ++
            (simpleL n s c 0 (fpos s c p 8)).1 ∧
      (simpleL n s c jv (fpos s c p jv)).2 = (simpleL n s c 0 (fpos s c p 8)).2 := by
    intro d
    induction d with
    | zero =>
      intro jv hjv
      have h8 : jv = 8 := by omega
      subst h8
      have hm : (8 : Nat) % 8 = 0 := rfl
      rw [simpleL_mod n s c 8, hm]
      exact ⟨by simp, rfl⟩
    | succ d ih =>
      intro jv hjv
      have hjv8 : jv < 8 := by omega
      have hlt : fpos s c p jv < n := fpos_lt hc hb jv hjv8
      have hmod : jv % 8 = jv := by omega
      rw [simpleL_step_fst hlt, simpleL_step_snd hlt, hmod]
      rw [fpos_step hc jv hjv8]
      have hihr := ih (jv + 1) (by omega)
      constructor
      · rw [hihr.1]
        have hdrop : (List.range 8).drop jv =
            jv :: (List.range 8).drop (jv + 1) := phasesFrom_cons jv hjv8
        rw [hdrop]
        simp
      · exact hihr.2
  have h0 := key 8 0 rfl
  have hp0 : fpos s c p 0 = p := by
    unfold fpos
    rw [if_pos (by omega), faddT_zero]
    simp [fmulT]
  have hp8 : fpos s c p 8 = p + (s * 30 + clsRes c) := by
    unfold fpos
    rw [if_neg (by omega)]
  rw [hp0, hp8] at h0
  refine ⟨?_, h0.2⟩
  rw [h0.1]
  congr 1
  unfold revList
  simp only [List.drop_zero]
  apply List.map_congr_left
  intro t ht
  have ht8 : t < 8 := by
    have := List.mem_range.mp ht
    omega
  unfold fpos
  rw [if_pos ht8, Prod.mk.injEq]
  exact ⟨by omega, rfl⟩

/-- The slow path mirrors the reference machine: entering at phase `jv` with
the phase list `phasesFrom jv`, a CHECK_FINISHED exit returns exactly the
reference machine's state, and completing all phases leaves the reference
machine at phase 0 of the byte reached. -/
theorem runPhases_sim (n s c : Nat) : ∀ d jv p sv ok, jv + d = 8 →
    (∀ st sv1 ok1, runPhases n s c (phasesFrom jv) p sv ok = .inl (st, sv1, ok1) →
      ∃ A, simpleL n s c jv p = (A, st) ∧ sv1 = applyStrikes sv A ∧ ok1 = ok) ∧
    (∀ p1 sv1 ok1, runPhases n s c (phasesFrom jv) p sv ok = .inr (p1, sv1, ok1) →
      ∃ A, (simpleL n s c jv p).1 = A ++ (simpleL n s c 0 p1).1 ∧
        (simpleL n s c jv p).2 = (simpleL n s c 0 p1).2 ∧
        sv1 = applyStrikes sv A ∧ ok1 = ok ∧
        p1 = p + ((phasesFrom jv).map (adv s c)).sum ∧ (jv < 8 → p < n)) := by
  intro d
  induction d with
  | zero =>
    intro jv p sv ok hjv
    have h8 : jv = 8 := by omega
    subst h8
    rw [phasesFrom_eight]
    constructor
    · intro st sv1 ok1 h
      simp [runPhases] at h
    · intro p1 sv1 ok1 h
      rw [runPhases] at h
      simp only [Sum.inr.injEq, Prod.mk.injEq] at h
      obtain ⟨h1, h2, h3⟩ := h
      subst h1; subst h2; subst h3
      have hm8 : simpleL n s c 8 p = simpleL n s c 0 p := by
        have hx := simpleL_mod n s c 8 p
        simpa using hx
      refine ⟨[], by rw [hm8]; simp, by rw [hm8], rfl, rfl, by simp, by omega⟩
  | succ d ih =>
    intro jv p sv ok hjv
    have hjv8 : jv < 8 := by omega
    have hmod : jv % 8 = jv := by omega
    rw [phasesFrom_cons jv hjv8]
    constructor
    · intro st sv1 ok1 h
      rw [runPhases] at h
      by_cases hn : n ≤ p
      · rw [if_pos hn] at h
        simp only [Sum.inl.injEq, Prod.mk.injEq] at h
        obtain ⟨h1, h2, h3⟩ := h
        refine ⟨[], ?_, h2 ▸ rfl, h3.symm⟩
        rw [simpleL_base hn, hmod, h1]
      · rw [if_neg hn] at h
        push_neg at hn
        have hok : (ok && decide (p < n)) = ok := by simp [hn]
        rw [hok] at h
        obtain ⟨A, hA1, hA2, hA3⟩ :=
          ((ih (jv + 1) (p + adv s c jv) (strikeB sv p (maskBitT c jv)) ok (by omega)).1)
          st sv1 ok1 h
        refine ⟨(p, maskBitT c jv) :: A, ?_, ?_, hA3⟩
        · rw [simpleL_step hn, hmod]
          rw [Prod.mk.injEq]
          exact ⟨by rw [hA1], by rw [hA1]⟩
        · rw [applyStrikes_cons]
          exact hA2
    · intro p1 sv1 ok1 h
      rw [runPhases] at h
      by_cases hn : n ≤ p
      · rw [if_pos hn] at h
        simp at h
      · rw [if_neg hn] at h
        push_neg at hn
        have hok : (ok && decide (p < n)) = ok := by simp [hn]
        rw [hok] at h
        obtain ⟨A, hA1, hA2, hA3, hA4, hA5, hA6⟩ :=
          ((ih (jv + 1) (p + adv s c jv) (strikeB sv p (maskBitT c jv)) ok (by omega)).2)
          p1 sv1 ok1 h
        refine ⟨(p, maskBitT c jv) :: A, ?_, ?_, ?_, hA4, ?_, fun _ => hn⟩
        · rw [simpleL_step_fst hn, hmod, hA1]
          simp
        · rw [simpleL_step_snd hn, hmod]
          exact hA2
        · rw [applyStrikes_cons]
          exact hA3
        · simp only [List.map_cons, List.sum_cons]
          omega

theorem revList_all_lt {n s c p : Nat} (hc : c < 8) (hb : p + (s * 28 + 27) < n) :
    ((revList s c p).all fun ib => decide (ib.1 < n)) = true := by
  rw [List.all_eq_true]
  intro ib hib
  unfold revList at hib
  rw [List.mem_map] at hib
  obtain ⟨t, ht, hteq⟩ := hib
  have ht8 : t < 8 := List.mem_range.mp ht
  have h1 := fmulT_le t ht8
  have h2 := faddT_le c hc t ht8
  have h3 : s * fmulT t ≤ s * 28 := Nat.mul_le_mul (le_refl s) h1
  rw [← hteq]
  simp only [decide_eq_true_eq]
  omega

theorem loopEnd_bound {n s p : Nat} (h : p < loopEndOf n (s * 28 + 27)) :
    p + (s * 28 + 27) < n := by
  unfold loopEndOf at h
  omega

/-- The fast loop mirrors the reference machine: it performs whole
revolutions of eight strikes each, leaving the reference machine at phase 0
of the byte where it stops, and all of its unchecked writes are in range. -/
theorem fastLoopF_sim {n s c : Nat} (hc : c < 8) :
    ∀ fuel p sv ok p1 sv1 ok1,
    fastLoopF fuel n s c (loopEndOf n (s * 28 + 27)) p sv ok = some (p1, sv1, ok1) →
    ∃ A, (simpleL n s c 0 p).1 = A ++ (simpleL n s c 0 p1).1 ∧
      (simpleL n s c 0 p).2 = (simpleL n s c 0 p1).2 ∧
      sv1 = applyStrikes sv A ∧ ok1 = ok ∧ p ≤ p1 := by
  intro fuel
  induction fuel with
  | zero =>
    intro p sv ok p1 sv1 ok1 h
    simp [fastLoopF] at h
  | succ fuel ih =>
    intro p sv ok p1 sv1 ok1 h
    rw [fastLoopF] at h
    by_cases hlt : p < loopEndOf n (s * 28 + 27)
    · rw [if_pos hlt] at h
      have hb := loopEnd_bound hlt
      have hru := rev_unroll hc hb
      obtain ⟨A, hA1, hA2, hA3, hA4, hA5⟩ := ih _ _ _ _ _ _ h
      refine ⟨revList s c p ++ A, ?_, ?_, ?_, ?_, by omega⟩
      · rw [hru.1, hA1, List.append_assoc]
      · rw [hru.2, hA2]
      · rw [applyStrikes_append, hA3]
        unfold fastBody
        simp
      · rw [hA4]
        unfold fastBody
        simp only []
        rw [revList_all_lt hc hb]
        simp
    · rw [if_neg hlt] at h
      simp only [Option.some.injEq, Prod.mk.injEq] at h
      obtain ⟨h1, h2, h3⟩ := h
      subst h1; subst h2; subst h3
      exact ⟨[], by simp, rfl, rfl, rfl, le_refl p⟩

theorem fastLoopF_isSome {n s c le : Nat} :
    ∀ fuel p sv ok, le - p < fuel → (fastLoopF fuel n s c le p sv ok).isSome = true := by
  intro fuel
  induction fuel with
  | zero =>
    intro p sv ok hf
    exfalso
    omega
  | succ fuel ih =>
    intro p sv ok hf
    rw [fastLoopF]
    by_cases hlt : p < le
    · rw [if_pos hlt]
      apply ih
      have := clsRes_pos c
      omega
    · rw [if_neg hlt]
      rfl

/-- The outer `for (;;)` loop mirrors the reference machine started at
phase 0, and preserves the in-range instrumentation bit. -/
theorem outerF_sim {n s c : Nat} (hc : c < 8) :
    ∀ fuel p sv ok st sv2 ok2,
    outerF fuel n s c (loopEndOf n (s * 28 + 27)) p sv ok = some (st, sv2, ok2) →
    st = (simpleL n s c 0 p).2 ∧
    sv2 = applyStrikes sv (simpleL n s c 0 p).1 ∧ ok2 = ok := by
  intro fuel
  induction fuel with
  | zero =>
    intro p sv ok st sv2 ok2 h
    simp [outerF] at h
  | succ fuel ih =>
    intro p sv ok st sv2 ok2 h
    rw [outerF] at h
    rcases hfl : fastLoopF (loopEndOf n (s * 28 + 27) + 1) n s c
        (loopEndOf n (s * 28 + 27)) p sv ok with _ | ⟨p1, sv1, ok1⟩
    · rw [hfl] at h
      simp at h
    · rw [hfl] at h
      obtain ⟨A1, hA1, hA2, hA3, hA4, _⟩ := fastLoopF_sim hc _ _ _ _ _ _ _ hfl
      rcases hrp : runPhases n s c (phasesFrom 0) p1 sv1 ok1 with ⟨st', sv2', ok2'⟩ | ⟨p2, sv2', ok2'⟩
      · simp only [hrp, Option.some.injEq, Prod.mk.injEq] at h
        obtain ⟨h1, h2, h3⟩ := h
        obtain ⟨A2, hB1, hB2, hB3⟩ := ((runPhases_sim n s c 8 0 p1 sv1 ok1 (by omega)).1)
          st' sv2' ok2' hrp
        refine ⟨?_, ?_, by rw [← h3, hB3, hA4]⟩
        · rw [hA2, hB1]
          exact h1.symm
        · rw [← h2, hB2, hA3, hA1, hB1, applyStrikes_append]
      · simp only [hrp] at h
        obtain ⟨A2, hB1, hB2, hB3, hB4, _, _⟩ := ((runPhases_sim n s c 8 0 p1 sv1 ok1 (by omega)).2)
          p2 sv2' ok2' hrp
        obtain ⟨hC1, hC2, hC3⟩ := ih p2 sv2' ok2' st sv2 ok2 h
        refine ⟨?_, ?_, by rw [hC3, hB4, hA4]⟩
        · rw [hC1, ← hB2, ← hA2]
        · rw [hC2, hB3, hA3, hA1, hB1, applyStrikes_append, applyStrikes_append]

theorem outerF_isSome {n s c : Nat} (hc : c < 8) :
    ∀ fuel p sv ok, n + 1 - p < fuel →
    (outerF fuel n s c (loopEndOf n (s * 28 + 27)) p sv ok).isSome = true := by
  intro fuel
  induction fuel with
  | zero =>
    intro p sv ok hf
    exfalso
    omega
  | succ fuel ih =>
    intro p sv ok hf
    rw [outerF]
    rcases hfl : fastLoopF (loopEndOf n (s * 28 + 27) + 1) n s c
        (loopEndOf n (s * 28 + 27)) p sv ok with _ | ⟨p1, sv1, ok1⟩
    · exfalso
      have := @fastLoopF_isSome n s c (loopEndOf n (s * 28 + 27))
        (loopEndOf n (s * 28 + 27) + 1) p sv ok (by omega)
      rw [hfl] at this
      simp at this
    · obtain ⟨A1, _, _, _, _, hp1⟩ := fastLoopF_sim hc _ _ _ _ _ _ _ hfl
      rcases hrp : runPhases n s c (phasesFrom 0) p1 sv1 ok1 with ⟨st', sv2', ok2'⟩ | ⟨p2, sv2', ok2'⟩
      · simp [hrp]
      · simp only [hrp]
        obtain ⟨A2, _, _, _, _, hB5, hB6⟩ := ((runPhases_sim n s c 8 0 p1 sv1 ok1 (by omega)).2)
          p2 sv2' ok2' hrp
        have hsum : 1 ≤ ((phasesFrom 0).map (adv s c)).sum := by
          rw [phasesFrom_cons 0 (by omega)]
          simp only [List.map_cons, List.sum_cons]
          have h1 := acT_zero_pos c
          have h2 : adv s c 0 = s * amT 0 + acT c 0 := rfl
          omega
        have hp1n : p1 < n := hB6 (by omega)
        apply ih
        omega

/-- The faithful per-prime crossOff equals the reference machine: same
sieve transformation, same saved state, and the in-range bit is preserved
(no write ever goes out of range). -/
theorem crossOffPrime_sim (n : Nat) (pr : SPrime) (sv : List Nat) (ok : Bool) :
    crossOffPrime n pr sv ok =
      (⟨pr.sievingPrime,
        (simpleL n pr.sievingPrime ((pr.wheelIndex &&& 63) / 8)
          ((pr.wheelIndex &&& 63) % 8) pr.multipleIndex).2.1,
        (simpleL n pr.sievingPrime ((pr.wheelIndex &&& 63) / 8)
          ((pr.wheelIndex &&& 63) % 8) pr.multipleIndex).2.2⟩,
       applyStrikes sv (simpleL n pr.sievingPrime ((pr.wheelIndex &&& 63) / 8)
          ((pr.wheelIndex &&& 63) % 8) pr.multipleIndex).1,
       ok) := by
  have hwile : pr.wheelIndex &&& 63 ≤ 63 := Nat.and_le_right
  have hc : (pr.wheelIndex &&& 63) / 8 < 8 := by omega
  have hjle : (pr.wheelIndex &&& 63) % 8 < 8 := by omega
  simp only [crossOffPrime]
  by_cases hj : (pr.wheelIndex &&& 63) % 8 = 0
  · rw [if_pos hj]
    rcases houter : outerF (n + 2) n pr.sievingPrime ((pr.wheelIndex &&& 63) / 8)
        (loopEndOf n (pr.sievingPrime * 28 + 27)) pr.multipleIndex sv ok with _ | ⟨st, sv2, ok2⟩
    · exfalso
      have := @outerF_isSome n pr.sievingPrime ((pr.wheelIndex &&& 63) / 8) hc
        (n + 2) pr.multipleIndex sv ok (by omega)
      rw [houter] at this
      simp at this
    · simp only [houter]
      obtain ⟨h1, h2, h3⟩ := outerF_sim hc _ _ _ _ _ _ _ houter
      rw [hj]
      rw [Prod.mk.injEq, Prod.mk.injEq, SPrime.mk.injEq]
      exact ⟨⟨rfl, by rw [h1], by rw [h1]⟩, by rw [h2], h3⟩
  · rw [if_neg hj]
    rcases hrp : runPhases n pr.sievingPrime ((pr.wheelIndex &&& 63) / 8)
        (phasesFrom ((pr.wheelIndex &&& 63) % 8)) pr.multipleIndex sv ok
      with ⟨st, sv1, ok1⟩ | ⟨p1, sv1, ok1⟩
    · simp only [hrp]
      obtain ⟨A, hA1, hA2, hA3⟩ := ((runPhases_sim n pr.sievingPrime
        ((pr.wheelIndex &&& 63) / 8) (8 - (pr.wheelIndex &&& 63) % 8)
        ((pr.wheelIndex &&& 63) % 8) pr.multipleIndex sv ok (by omega)).1) st sv1 ok1 hrp
      rw [Prod.mk.injEq, Prod.mk.injEq, SPrime.mk.injEq]
      refine ⟨⟨rfl, by rw [hA1], by rw [hA1]⟩, by rw [hA1, hA2], hA3⟩
    · simp only [hrp]
      rcases houter : outerF (n + 2) n pr.sievingPrime ((pr.wheelIndex &&& 63) / 8)
          (loopEndOf n (pr.sievingPrime * 28 + 27)) p1 sv1 ok1 with _ | ⟨st, sv2, ok2⟩
      · exfalso
        have := @outerF_isSome n pr.sievingPrime ((pr.wheelIndex &&& 63) / 8) hc
          (n + 2) p1 sv1 ok1 (by omega)
        rw [houter] at this
        simp at this
      · simp only [houter]
        obtain ⟨A2, hB1, hB2, hB3, hB4, _, _⟩ := ((runPhases_sim n pr.sievingPrime
          ((pr.wheelIndex &&& 63) / 8) (8 - (pr.wheelIndex &&& 63) % 8)
          ((pr.wheelIndex &&& 63) % 8) pr.multipleIndex sv ok (by omega)).2) p1 sv1 ok1 hrp
        obtain ⟨hC1, hC2, hC3⟩ := outerF_sim hc _ _ _ _ _ _ _ houter
        rw [Prod.mk.injEq, Prod.mk.injEq, SPrime.mk.injEq]
        refine ⟨⟨rfl, ?_, ?_⟩, ?_, by rw [hC3, hB4]⟩
        · rw [hC1, ← hB2]
        · rw [hC1, ← hB2]
        · rw [hC2, hB3, hB1, applyStrikes_append]

/-! ### Bit-level reading of strikes -/

/-- The strike list of one prime over a segment of `n` bytes. -/
def primeStrikes (n : Nat) (pr : SPrime) : List (Nat × Nat) :=
  (simpleL n pr.sievingPrime ((pr.wheelIndex &&& 63) / 8)
    ((pr.wheelIndex &&& 63) % 8) pr.multipleIndex).1

/-- The updated record of one prime after a segment of `n` bytes. -/
def primeNext (n : Nat) (pr : SPrime) : SPrime :=
  ⟨pr.sievingPrime,
   (simpleL n pr.sievingPrime ((pr.wheelIndex &&& 63) / 8)
     ((pr.wheelIndex &&& 63) % 8) pr.multipleIndex).2.1,
   (simpleL n pr.sievingPrime ((pr.wheelIndex &&& 63) / 8)
     ((pr.wheelIndex &&& 63) % 8) pr.multipleIndex).2.2⟩

/-- All strikes of a list of primes, in order. -/
def segStrikes (n : Nat) : List SPrime → List (Nat × Nat)
  | [] => []
  | pr :: ps => primeStrikes n pr ++ segStrikes n ps

theorem crossOffSeg_sim (n : Nat) : ∀ ps sv ok,
    crossOffSeg n ps sv ok = (ps.map (primeNext n), applyStrikes sv (segStrikes n ps), ok) := by
  intro ps
  induction ps with
  | nil => intro sv ok; rfl
  | cons pr ps ih =>
    intro sv ok
    rw [crossOffSeg]
    rw [crossOffPrime_sim]
    simp only [List.map_cons]
    rw [ih]
    rw [segStrikes, applyStrikes_append]
    rfl

theorem BITm_testBit : ∀ b < 8, ∀ b0 < 8, (BITm b0).testBit b = decide (b ≠ b0) := by decide

theorem getD_le_255 {sv : List Nat} (hsv : ∀ x ∈ sv, x ≤ 255) (k : Nat) :
    sv.getD k 0 ≤ 255 := by
  rcases Nat.lt_or_ge k sv.length with h | h
  · have := List.getD_eq_getElem sv 0 h
    rw [this]
    exact hsv _ (List.getElem_mem h)
  · rw [List.getD_eq_default sv 0 h]
    omega

theorem strikeB_getD_ne {sv : List Nat} {i k : Nat} (b0 : Nat) (h : k ≠ i) :
    (strikeB sv i b0).getD k 0 = sv.getD k 0 := by
  unfold strikeB
  rw [List.getD_eq_getElem?_getD, List.getD_eq_getElem?_getD, List.getElem?_set_ne (by omega)]
  rw [List.getD_eq_getElem?_getD]

theorem strikeB_getD_self {sv : List Nat} {i : Nat} (b0 : Nat) (h : i < sv.length) :
    (strikeB sv i b0).getD i 0 = sv.getD i 0 &&& BITm b0 := by
  unfold strikeB
  rw [List.getD_eq_getElem?_getD, List.getElem?_set_self (by omega)]
  rw [List.getD_eq_getElem?_getD]
  rcases hx : sv[i]? with _ | x
  · rw [List.getElem?_eq_none_iff] at hx
    omega
  · simp

theorem strikeB_getD_oob {sv : List Nat} {i : Nat} (b0 : Nat) (h : sv.length ≤ i) :
    (strikeB sv i b0).getD i 0 = sv.getD i 0 := by
  unfold strikeB
  rw [List.set_eq_of_length_le h]

theorem strikeB_testBit {sv : List Nat} (i b0 k b : Nat) (hb : b < 8) (hb0 : b0 < 8) :
    ((strikeB sv i b0).getD k 0).testBit b =
      ((sv.getD k 0).testBit b && !decide (k = i ∧ b = b0)) := by
  by_cases hk : k = i
  · subst hk
    by_cases hlen : k < sv.length
    · rw [strikeB_getD_self b0 hlen, Nat.testBit_and, BITm_testBit b hb b0 hb0]
      by_cases hbb : b = b0
      · simp [hbb]
      · simp [hbb]
    · rw [strikeB_getD_oob b0 (by omega)]
      have hz : sv.getD k 0 = 0 := List.getD_eq_default sv 0 (by omega)
      rw [hz]
      simp
  · rw [strikeB_getD_ne b0 hk]
    simp [hk]

theorem applyStrikes_testBit : ∀ (l : List (Nat × Nat)) (sv : List Nat) (k b : Nat),
    b < 8 → (∀ ib ∈ l, ib.2 < 8) →
    ((applyStrikes sv l).getD k 0).testBit b =
      ((sv.getD k 0).testBit b && decide ((k, b) ∉ l)) := by
  intro l
  induction l with
  | nil => intro sv k b hb hl; simp [applyStrikes]
  | cons ib l ih =>
    intro sv k b hb hl
    rw [applyStrikes_cons]
    rw [ih _ k b hb (fun x hx => hl x (List.mem_cons_of_mem ib hx))]
    rw [strikeB_testBit ib.1 ib.2 k b hb (hl ib (List.mem_cons_self ib l))]
    by_cases h1 : (k, b) = ib
    · have hk : k = ib.1 ∧ b = ib.2 := by
        rw [← h1]
        exact ⟨rfl, rfl⟩
      simp [h1, hk]
    · have hk : ¬(k = ib.1 ∧ b = ib.2) := by
        intro hcon
        apply h1
        rw [Prod.ext_iff]
        exact hcon
      by_cases h2 : (k, b) ∈ l
      · simp [h2, hk]
      · simp [h2, hk, h1]

theorem applyStrikes_length (l : List (Nat × Nat)) : ∀ sv : List Nat,
    (applyStrikes sv l).length = sv.length := by
  induction l with
  | nil => intro sv; rfl
  | cons ib l ih =>
    intro sv
    rw [applyStrikes_cons, ih]
    unfold strikeB
    rw [List.length_set]

theorem applyStrikes_le_255 (l : List (Nat × Nat)) : ∀ (sv : List Nat) (k : Nat),
    sv.getD k 0 ≤ 255 → (applyStrikes sv l).getD k 0 ≤ 255 := by
  induction l with
  | nil => intro sv k h; exact h
  | cons ib l ih =>
    intro sv k h
    rw [applyStrikes_cons]
    apply ih
    by_cases hk : k = ib.1
    · by_cases hlen : ib.1 < sv.length
      · rw [hk] at h ⊢
        rw [strikeB_getD_self ib.2 hlen]
        have h2 : sv.getD ib.1 0 &&& BITm ib.2 ≤ sv.getD ib.1 0 := Nat.and_le_left
        omega
      · rw [hk] at h ⊢
        rw [strikeB_getD_oob ib.2 (by omega)]
        exact h
    · rw [strikeB_getD_ne ib.2 hk]
      exact h

theorem byte_eq_of_bits {x y : Nat} (hx : x ≤ 255) (hy : y ≤ 255)
    (h : ∀ b < 8, x.testBit b = y.testBit b) : x = y := by
  apply Nat.eq_of_testBit_eq
  intro i
  rcases Nat.lt_or_ge i 8 with h8 | h8
  · exact h i h8
  · have hxi : x.testBit i = false := Nat.testBit_eq_false_of_lt (by
      calc x ≤ 255 := hx
      _ < 2 ^ 8 := by omega
      _ ≤ 2 ^ i := Nat.pow_le_pow_right (by omega) h8)
    have hyi : y.testBit i = false := Nat.testBit_eq_false_of_lt (by
      calc y ≤ 255 := hy
      _ < 2 ^ 8 := by omega
      _ ≤ 2 ^ i := Nat.pow_le_pow_right (by omega) h8)
    rw [hxi, hyi]

/-! ### The Wheel model -/

theorem cop_within_30 : ∀ r < 30, ∃ t, t < 30 ∧ Nat.gcd ((r + t) % 30) 30 = 1 := by decide

theorem nextCop_spec : ∀ fuel m, (∃ t, t < fuel ∧ Nat.gcd (m + t) 30 = 1) →
    Nat.gcd (nextCop fuel m) 30 = 1 ∧ m ≤ nextCop fuel m ∧
    ∀ t, m ≤ t → t < nextCop fuel m → Nat.gcd t 30 ≠ 1 := by
  intro fuel
  induction fuel with
  | zero =>
    intro m h
    obtain ⟨t, ht, _⟩ := h
    omega
  | succ fuel ih =>
    intro m h
    rw [nextCop]
    by_cases hm : Nat.gcd m 30 = 1
    · rw [if_pos hm]
      exact ⟨hm, le_refl m, fun t h1 h2 => by omega⟩
    · rw [if_neg hm]
      obtain ⟨t, ht, htg⟩ := h
      have ht0 : t ≠ 0 := by
        intro h0
        rw [h0, Nat.add_zero] at htg
        exact hm htg
      obtain ⟨h1, h2, h3⟩ := ih (m + 1) ⟨t - 1, by omega, by
        have : m + 1 + (t - 1) = m + t := by omega
        rw [this]
        exact htg⟩
      refine ⟨h1, by omega, ?_⟩
      intro u hu1 hu2
      rcases Nat.eq_or_lt_of_le hu1 with he | hl
      · rw [← he]
        exact hm
      · exact h3 u (by omega) hu2

theorem nextCop_exists (m : Nat) : ∃ t, t < 31 ∧ Nat.gcd (m + t) 30 = 1 := by
  obtain ⟨t, ht, htg⟩ := cop_within_30 (m % 30) (Nat.mod_lt _ (by omega))
  refine ⟨t, by omega, ?_⟩
  rw [gcd_mod30]
  have : (m + t) % 30 = (m % 30 + t) % 30 := by omega
  rw [this, htg]

theorem wheelFirst_spec {q L : Nat} (hq : 0 < q) :
    Nat.gcd (wheelFirst q L) 30 = 1 ∧ L + 7 ≤ q * wheelFirst q L ∧
    ∀ t, Nat.gcd t 30 = 1 → L + 7 ≤ q * t → wheelFirst q L ≤ t := by
  have hiff : ∀ m : Nat, L + 7 ≤ q * m ↔ (L + 6) / q + 1 ≤ m := by
    intro m
    constructor
    · intro h
      have : (L + 6) / q < m := by
        rw [Nat.div_lt_iff_lt_mul hq]
        calc L + 6 < q * m := by omega
        _ = m * q := Nat.mul_comm q m
      omega
    · intro h
      have : (L + 6) / q < m := by omega
      rw [Nat.div_lt_iff_lt_mul hq] at this
      have : L + 6 < q * m := by
        calc L + 6 < m * q := this
        _ = q * m := Nat.mul_comm m q
      omega
  obtain ⟨h1, h2, h3⟩ := nextCop_spec 31 ((L + 6) / q + 1) (nextCop_exists _)
  unfold wheelFirst
  refine ⟨h1, (hiff _).mpr h2, ?_⟩
  intro t htg htq
  by_contra hcon
  push_neg at hcon
  exact h3 t ((hiff t).mp htq) hcon htg

theorem and63_eq_mod (x : Nat) : x &&& 63 = x % 64 := by
  have h := Nat.and_pow_two_sub_one_eq_mod x 6
  norm_num at h
  exact h

theorem phaseIdx_lt (r : Nat) : phaseIdx r < 8 := by
  unfold phaseIdx
  repeat' split
  all_goals omega

theorem clsIdx_lt (r : Nat) : clsIdx r < 8 := by
  unfold clsIdx
  repeat' split
  all_goals omega

theorem cls_inv : ∀ r < 30, Nat.gcd r 30 = 1 → clsRes (clsIdx r) = r := by decide

theorem rOff_cop : ∀ b < 8, Nat.gcd (rOff b % 30) 30 = 1 := by decide

/-- `simpleL` version of the machine characterization. -/
theorem simpleL_char {n s c j p L m q : Nat}
    (hc : c < 8) (hq : q = 30 * s + clsRes c) (hL : L % 30 = 0)
    (hm : Nat.gcd m 30 = 1) (hj : j % 8 = phaseIdx (m % 30))
    (hge : L + 7 ≤ q * m)
    (hp : p = (q * m - L - 7) / 30) :
    (∀ k b, (k, b) ∈ (simpleL n s c j p).1 ↔ k < n ∧ b < 8 ∧
        ∃ mm, m ≤ mm ∧ Nat.gcd mm 30 = 1 ∧ q * mm = L + 30 * k + rOff b) ∧
      ∃ mm, m ≤ mm ∧ Nat.gcd mm 30 = 1 ∧ L + 30 * n + 7 ≤ q * mm ∧
        (∀ t, m ≤ t → t < mm → Nat.gcd t 30 = 1 → q * t < L + 30 * n + 7) ∧
        (simpleL n s c j p).2.1 = (q * mm - L - 7) / 30 - n ∧
        (simpleL n s c j p).2.2 = 8 * c + phaseIdx (mm % 30) := by
  obtain ⟨l, mi, wi, hrun, hmem, hst⟩ :=
    @simpleListF_char (phiM n p j) n s c j p L m q hc hq hL hm hj hge hp (le_refl _)
  rw [@simpleListF_eq_simpleL (phiM n p j) n s c j p (le_refl _)] at hrun
  have heq : simpleL n s c j p = (l, mi, wi) := Option.some_inj.mp hrun
  rw [heq]
  exact ⟨hmem, hst⟩

/-- Setup facts for a sieving prime record produced by the Wheel model. -/
theorem wheel_setup {q L : Nat} (_hq7 : 7 ≤ q) (hqg : Nat.gcd q 30 = 1) :
    clsIdx (q % 30) < 8 ∧
    q = 30 * (q / 30) + clsRes (clsIdx (q % 30)) ∧
    ((8 * clsIdx (q % 30) + phaseIdx (wheelFirst q L % 30)) &&& 63) / 8 = clsIdx (q % 30) ∧
    ((8 * clsIdx (q % 30) + phaseIdx (wheelFirst q L % 30)) &&& 63) % 8 =
      phaseIdx (wheelFirst q L % 30) ∧
    (8 * clsIdx (q % 30) + phaseIdx (wheelFirst q L % 30)) % 8 % 8 =
      phaseIdx (wheelFirst q L % 30) := by
  have hc8 := clsIdx_lt (q % 30)
  have hp8 := phaseIdx_lt (wheelFirst q L % 30)
  have hinv : clsRes (clsIdx (q % 30)) = q % 30 := by
    apply cls_inv (q % 30) (Nat.mod_lt _ (by omega))
    rw [← gcd_mod30]
    exact hqg
  have hand := and63_eq_mod (8 * clsIdx (q % 30) + phaseIdx (wheelFirst q L % 30))
  refine ⟨hc8, ?_, by omega, by omega, by omega⟩
  rw [hinv]
  omega

/-- Characterization of the strikes of a freshly added sieving prime:
they are exactly the in-range bits whose integer is divisible by the
prime. -/
theorem primeStrikes_wheel {q L n : Nat} (hq7 : 7 ≤ q) (hqg : Nat.gcd q 30 = 1)
    (hL : L % 30 = 0) :
    ∀ k b, (k, b) ∈ primeStrikes n (Wheel.addSievingPrime q L) ↔
      k < n ∧ b < 8 ∧ q ∣ (L + 30 * k + rOff b) := by
  obtain ⟨hc8, hqdecomp, hdiv8, hmod8, _⟩ := wheel_setup (L := L) hq7 hqg
  obtain ⟨hg0, hge0, hmin0⟩ := wheelFirst_spec (q := q) (L := L) (by omega)
  unfold primeStrikes Wheel.addSievingPrime
  simp only [hdiv8, hmod8]
  obtain ⟨hmem, _⟩ := @simpleL_char n (q / 30) (clsIdx (q % 30))
    (phaseIdx (wheelFirst q L % 30)) ((q * wheelFirst q L - L - 7) / 30) L
    (wheelFirst q L) q hc8 hqdecomp hL hg0
    (by have := phaseIdx_lt (wheelFirst q L % 30); omega) hge0 rfl
  intro k b
  rw [hmem k b]
  constructor
  · rintro ⟨hk, hb, mm, hmmle, hmmg, hmmq⟩
    exact ⟨hk, hb, ⟨mm, hmmq.symm⟩⟩
  · rintro ⟨hk, hb, hdvd⟩
    obtain ⟨mm, hmm⟩ := hdvd
    have hxg : Nat.gcd (q * mm) 30 = 1 := by
      rw [← hmm, gcd_mod30]
      have hx2 : (L + 30 * k + rOff b) % 30 = rOff b % 30 := by omega
      rw [hx2]
      exact rOff_cop b hb
    have hmmg : Nat.gcd mm 30 = 1 :=
      Nat.Coprime.coprime_dvd_left (dvd_mul_left mm q) hxg
    have hbr := (rOff_range b hb).1
    refine ⟨hk, hb, mm, ?_, hmmg, hmm.symm⟩
    apply hmin0 mm hmmg
    omega

/-! ### Resumability at the crossOff level -/

theorem simpleL_shape (n s c : Nat) : ∀ fuel j p, phiM n p j ≤ fuel →
    (∀ ib ∈ (simpleL n s c j p).1, ib.1 < n) ∧
    ∃ jv, jv < 8 ∧ (simpleL n s c j p).2.2 = 8 * c + jv := by
  intro fuel
  induction fuel with
  | zero => intro j p hf; unfold phiM at hf; omega
  | succ fuel ih =>
    intro j p hf
    by_cases h1 : n ≤ p
    · rw [simpleL_base_fst h1, simpleL_base_snd h1]
      exact ⟨by simp, j % 8, by omega, rfl⟩
    · push_neg at h1
      have hstep := phiM_step s c j h1
      obtain ⟨ihm, ihs⟩ := ih (j % 8 + 1) (p + adv s c (j % 8)) (by omega)
      rw [simpleL_step_fst h1, simpleL_step_snd h1]
      constructor
      · intro ib hib
        rcases List.mem_cons.mp hib with he | hm
        · rw [he]
          exact h1
        · exact ihm ib hm
      · exact ihs

theorem primeStrikes_pos (n : Nat) (pr : SPrime) :
    ∀ ib ∈ primeStrikes n pr, ib.1 < n := by
  intro ib hib
  exact ((simpleL_shape n pr.sievingPrime ((pr.wheelIndex &&& 63) / 8) _
    ((pr.wheelIndex &&& 63) % 8) pr.multipleIndex (le_refl _)).1) ib hib

theorem getD_take {sv : List Nat} {i mid : Nat} (h : i < mid) :
    (sv.take mid).getD i 0 = sv.getD i 0 := by
  rw [List.getD_eq_getElem?_getD, List.getD_eq_getElem?_getD, List.getElem?_take_of_lt h]

theorem applyStrikes_take (A : List (Nat × Nat)) : ∀ (sv : List Nat) (mid : Nat),
    (∀ ib ∈ A, ib.1 < mid) →
    applyStrikes sv A = applyStrikes (sv.take mid) A ++ sv.drop mid := by
  induction A with
  | nil =>
    intro sv mid h
    simp [applyStrikes]
  | cons ib A ih =>
    intro sv mid h
    rw [applyStrikes_cons, applyStrikes_cons]
    have hib := h ib (List.mem_cons_self ib A)
    rw [ih (strikeB sv ib.1 ib.2) mid (fun x hx => h x (List.mem_cons_of_mem ib hx))]
    have h1 : (strikeB sv ib.1 ib.2).take mid = strikeB (sv.take mid) ib.1 ib.2 := by
      unfold strikeB
      rw [List.set_take, getD_take hib]
    have h2 : (strikeB sv ib.1 ib.2).drop mid = sv.drop mid := by
      unfold strikeB
      rw [List.drop_set_of_lt _ _ hib]
    rw [h1, h2]

theorem applyStrikes_shift (B : List (Nat × Nat)) : ∀ (X Y : List Nat) (mid : Nat),
    X.length = mid →
    applyStrikes (X ++ Y) (B.map (fun kb => (kb.1 + mid, kb.2))) = X ++ applyStrikes Y B := by
  induction B with
  | nil =>
    intro X Y mid h
    simp [applyStrikes]
  | cons ib B ih =>
    intro X Y mid h
    simp only [List.map_cons]
    rw [applyStrikes_cons, applyStrikes_cons]
    have hkey : strikeB (X ++ Y) (ib.1 + mid) ib.2 = X ++ strikeB Y ib.1 ib.2 := by
      unfold strikeB
      have hle0 : X.length ≤ ib.1 + mid := by omega
      have hg : (X ++ Y).getD (ib.1 + mid) 0 = Y.getD ib.1 0 := by
        rw [List.getD_eq_getElem?_getD, List.getD_eq_getElem?_getD,
          List.getElem?_append_right hle0]
        have harg : ib.1 + mid - X.length = ib.1 := by omega
        rw [harg]
      have hle : X.length ≤ ib.1 + mid := by omega
      rw [hg, List.set_append_right _ _ hle]
      have harg2 : ib.1 + mid - X.length = ib.1 := by omega
      rw [harg2]
    rw [hkey]
    exact ih X (strikeB Y ib.1 ib.2) mid h

/-- Per-prime resumability: crossing a length-`len` segment equals crossing
`[0, mid)` and resuming over `[mid, len)` with the carried record. -/
theorem primeNext_comp {len mid : Nat} (hmid : mid ≤ len) (pr : SPrime) :
    primeNext len pr = primeNext (len - mid) (primeNext mid pr) ∧
    primeStrikes len pr = primeStrikes mid pr ++
      (primeStrikes (len - mid) (primeNext mid pr)).map (fun kb => (kb.1 + mid, kb.2)) := by
  have hand := and63_eq_mod pr.wheelIndex
  have hc8 : (pr.wheelIndex &&& 63) / 8 < 8 := by omega
  obtain ⟨hsplit1, hsplit2⟩ := @simpleL_split len mid pr.sievingPrime
    ((pr.wheelIndex &&& 63) / 8) hmid
    (phiM len pr.multipleIndex ((pr.wheelIndex &&& 63) % 8))
    ((pr.wheelIndex &&& 63) % 8) pr.multipleIndex (le_refl _)
  obtain ⟨_, jv, hjv8, hshape⟩ := simpleL_shape mid pr.sievingPrime
    ((pr.wheelIndex &&& 63) / 8)
    (phiM mid pr.multipleIndex ((pr.wheelIndex &&& 63) % 8))
    ((pr.wheelIndex &&& 63) % 8) pr.multipleIndex (le_refl _)
  rw [hshape] at hsplit1 hsplit2
  have hand2 := and63_eq_mod (8 * ((pr.wheelIndex &&& 63) / 8) + jv)
  have hdiv : ((8 * ((pr.wheelIndex &&& 63) / 8) + jv) &&& 63) / 8 =
      (pr.wheelIndex &&& 63) / 8 := by omega
  have hm8 : ((8 * ((pr.wheelIndex &&& 63) / 8) + jv) &&& 63) % 8 = jv := by omega
  have hm82 : (8 * ((pr.wheelIndex &&& 63) / 8) + jv) % 8 = jv := by omega
  rw [simpleL_mod (len - mid) pr.sievingPrime ((pr.wheelIndex &&& 63) / 8)
    (8 * ((pr.wheelIndex &&& 63) / 8) + jv), hm82] at hsplit1 hsplit2
  constructor
  · unfold primeNext
    dsimp only
    rw [SPrime.mk.injEq, hshape, hdiv, hm8]
    exact ⟨rfl, by rw [hsplit2], by rw [hsplit2]⟩
  · unfold primeStrikes primeNext
    dsimp only
    rw [hshape, hdiv, hm8]
    rw [hsplit1]

/-- Splitting a whole pass over the stored primes at byte `mid`. -/
theorem seg_split : ∀ (ps : List SPrime) (len mid : Nat) (sv : List Nat),
    mid ≤ len → mid ≤ sv.length →
    applyStrikes sv (segStrikes len ps) =
      applyStrikes (sv.take mid) (segStrikes mid ps) ++
        applyStrikes (sv.drop mid) (segStrikes (len - mid) (ps.map (primeNext mid))) := by
  intro ps
  induction ps with
  | nil =>
    intro len mid sv h1 h2
    simp only [segStrikes, List.map_nil]
    unfold applyStrikes
    simp only [List.foldl_nil]
    rw [List.take_append_drop]
  | cons pr ps ih =>
    intro len mid sv h1 h2
    simp only [segStrikes, List.map_cons]
    rw [applyStrikes_append]
    rw [(primeNext_comp h1 pr).2]
    rw [applyStrikes_append]
    rw [applyStrikes_take (primeStrikes mid pr) sv mid (primeStrikes_pos mid pr)]
    have hXlen : (applyStrikes (sv.take mid) (primeStrikes mid pr)).length = mid := by
      rw [applyStrikes_length, List.length_take]
      omega
    rw [applyStrikes_shift _ _ _ _ hXlen]
    have hsv2 : (applyStrikes (sv.take mid) (primeStrikes mid pr) ++
        applyStrikes (sv.drop mid) (primeStrikes (len - mid) (primeNext mid pr))).length = sv.length := by
      rw [List.length_append, applyStrikes_length, applyStrikes_length,
        List.length_take, List.length_drop]
      omega
    rw [ih len mid _ h1 (by rw [hsv2]; exact h2)]
    have htake : (applyStrikes (sv.take mid) (primeStrikes mid pr) ++
        applyStrikes (sv.drop mid) (primeStrikes (len - mid) (primeNext mid pr))).take mid =
        applyStrikes (sv.take mid) (primeStrikes mid pr) := List.take_left' hXlen
    have hdrop : (applyStrikes (sv.take mid) (primeStrikes mid pr) ++
        applyStrikes (sv.drop mid) (primeStrikes (len - mid) (primeNext mid pr))).drop mid =
        applyStrikes (sv.drop mid) (primeStrikes (len - mid) (primeNext mid pr)) :=
      List.drop_left' hXlen
    rw [htake, hdrop]
    rw [applyStrikes_append, applyStrikes_append]

/-! ### The preSieveLarge copy loop -/

/-- The byte the large pre-sieve writes at distance `t` from the position
tuple `pos`: the AND of the eight buffer bytes, cursors wrapping modulo
each buffer length. -/
def andWrap (bufs : List (List Nat)) (pos : List Nat) (t : Nat) : Nat :=
  (List.range bufs.length).foldl
    (fun a i => a &&& (bufs.getD i []).getD ((pos.getD i 0 + t) % (bufs.getD i []).length) 0) 255

theorem foldl_min_le_init (l : List Nat) (f : Nat → Nat) :
    ∀ a : Nat, l.foldl (fun acc x => min (f x) acc) a ≤ a := by
  induction l with
  | nil => intro a; exact le_refl a
  | cons x l ih =>
    intro a
    calc l.foldl (fun acc y => min (f y) acc) (min (f x) a) ≤ min (f x) a := ih _
    _ ≤ a := Nat.min_le_right _ _

theorem foldl_min_le_elem (l : List Nat) (f : Nat → Nat) :
    ∀ (a : Nat) (x), x ∈ l → l.foldl (fun acc y => min (f y) acc) a ≤ f x := by
  induction l with
  | nil => intro a x hx; exact absurd hx (List.not_mem_nil x)
  | cons y l ih =>
    intro a x hx
    rcases List.mem_cons.mp hx with he | hm
    · subst he
      calc l.foldl (fun acc z => min (f z) acc) (min (f x) a) ≤ min (f x) a :=
        foldl_min_le_init l f _
      _ ≤ f x := Nat.min_le_left _ _
    · exact ih _ x hm

theorem le_foldl_min (l : List Nat) (f : Nat → Nat) :
    ∀ (a b : Nat), b ≤ a → (∀ x ∈ l, b ≤ f x) → b ≤ l.foldl (fun acc y => min (f y) acc) a := by
  induction l with
  | nil => intro a b h1 h2; exact h1
  | cons x l ih =>
    intro a b h1 h2
    apply ih
    · exact le_min (h2 x (List.mem_cons_self x l)) h1
    · intro y hy
      exact h2 y (List.mem_cons_of_mem x hy)

theorem foldl_and_ext (l : List Nat) (f g : Nat → Nat) :
    ∀ a : Nat, (∀ x ∈ l, f x = g x) →
    l.foldl (fun acc x => acc &&& f x) a = l.foldl (fun acc x => acc &&& g x) a := by
  induction l with
  | nil => intro a h; rfl
  | cons x l ih =>
    intro a h
    simp only [List.foldl_cons]
    rw [h x (List.mem_cons_self x l)]
    exact ih _ (fun y hy => h y (List.mem_cons_of_mem x hy))

theorem map_range_getD (n i : Nat) (f : Nat → Nat) (d : Nat) (h : i < n) :
    ((List.range n).map f).getD i d = f i := by
  rw [List.getD_eq_getElem ((List.range n).map f) d (by simp [h])]
  rw [List.getElem_map, List.getElem_range]

theorem getD_append_left {l1 l2 : List Nat} {k d : Nat} (h : k < l1.length) :
    (l1 ++ l2).getD k d = l1.getD k d := by
  rw [List.getD_eq_getElem?_getD, List.getD_eq_getElem?_getD,
    List.getElem?_append_left h]

theorem getD_append_right {l1 l2 : List Nat} {k d : Nat} (h : l1.length ≤ k) :
    (l1 ++ l2).getD k d = l2.getD (k - l1.length) d := by
  rw [List.getD_eq_getElem?_getD, List.getD_eq_getElem?_getD,
    List.getElem?_append_right h]

/-- Full characterization of the `preSieveLarge` copy loop: it succeeds with
fuel `sieve.length - offset + 1`, and every byte from `offset` on is the
wrapped AND of the buffers. -/
theorem psLoop_char (bufs : List (List Nat))
    (hbl : ∀ i, i < bufs.length → 0 < (bufs.getD i []).length) :
    ∀ fuel offset pos sv,
    (∀ i, i < bufs.length → pos.getD i 0 < (bufs.getD i []).length) →
    sv.length - offset < fuel →
    ∃ out, psLoop bufs fuel offset pos sv = some out ∧
      out.length = sv.length ∧
      ∀ k, k < sv.length → out.getD k 0 =
        if k < offset then sv.getD k 0 else andWrap bufs pos (k - offset) := by
  intro fuel
  induction fuel with
  | zero =>
    intro offset pos sv hpos hf
    omega
  | succ fuel ih =>
    intro offset pos sv hpos hf
    rw [psLoop]
    by_cases hoff : sv.length ≤ offset
    · rw [if_pos hoff]
      refine ⟨sv, rfl, rfl, ?_⟩
      intro k hk
      rw [if_pos (by omega)]
    · rw [if_neg hoff]
      push_neg at hoff
      -- abbreviations matching the let-bindings
      set btc := (List.range bufs.length).foldl
        (fun a i => min ((bufs.getD i []).length - pos.getD i 0) a) (sv.length - offset) with hbtc
      set out0 := andBuffers bufs pos btc with hout0
      set sv1 := sv.take offset ++ out0 ++ sv.drop (offset + btc) with hsv1
      set pos1 := (List.range bufs.length).map (fun i =>
        if (bufs.getD i []).length ≤ pos.getD i 0 + btc then 0 else pos.getD i 0 + btc)
        with hpos1
      have hbtc1 : 1 ≤ btc := by
        apply le_foldl_min
        · omega
        · intro x hx
          have hx8 : x < bufs.length := List.mem_range.mp hx
          have := hpos x hx8
          omega
      have hbtc2 : btc ≤ sv.length - offset := foldl_min_le_init _ _ _
      have hbtc3 : ∀ i, i < bufs.length → btc ≤ (bufs.getD i []).length - pos.getD i 0 := by
        intro i hi
        exact foldl_min_le_elem _ _ _ i (List.mem_range.mpr hi)
      have hout0len : out0.length = btc := by
        rw [hout0]
        unfold andBuffers
        rw [List.length_map, List.length_range]
      have hsv1len : sv1.length = sv.length := by
        rw [hsv1]
        simp only [List.length_append, List.length_take, List.length_drop, hout0len]
        omega
      have hpos1getD : ∀ i, i < bufs.length → pos1.getD i 0 =
          if (bufs.getD i []).length ≤ pos.getD i 0 + btc then 0
          else pos.getD i 0 + btc := by
        intro i hi
        rw [hpos1, map_range_getD _ _ _ _ hi]
      have hpos1lt : ∀ i, i < bufs.length → pos1.getD i 0 < (bufs.getD i []).length := by
        intro i hi
        rw [hpos1getD i hi]
        split
        · exact hbl i hi
        · omega
      obtain ⟨out, hrun, holen, hochar⟩ := ih (offset + btc) pos1 sv1 hpos1lt (by omega)
      refine ⟨out, hrun, by rw [holen, hsv1len], ?_⟩
      intro k hk
      rw [hochar k (by omega)]
      by_cases hk1 : k < offset
      · rw [if_pos (by omega), if_pos hk1, hsv1]
        rw [getD_append_left (by simp only [List.length_append, List.length_take]; omega)]
        rw [getD_append_left (by simp only [List.length_take]; omega)]
        rw [getD_take hk1]
      · push_neg at hk1
        rw [if_neg hk1.not_lt]
        by_cases hk2 : k < offset + btc
        · rw [if_pos hk2, hsv1]
          rw [getD_append_left (by simp only [List.length_append, List.length_take, hout0len]; omega)]
          rw [getD_append_right (by simp only [List.length_take]; omega)]
          have hktake : k - (sv.take offset).length = k - offset := by
            simp only [List.length_take]
            omega
          rw [hktake, hout0]
          unfold andBuffers
          rw [map_range_getD _ _ _ _ (by omega)]
          unfold andWrap
          apply foldl_and_ext
          intro i hi
          have hi8 : i < bufs.length := List.mem_range.mp hi
          have h3 := hbtc3 i hi8
          have hlt : pos.getD i 0 + (k - offset) < (bufs.getD i []).length := by omega
          rw [Nat.mod_eq_of_lt hlt]
        · push_neg at hk2
          rw [if_neg (by omega)]
          unfold andWrap
          apply foldl_and_ext
          intro i hi
          have hi8 : i < bufs.length := List.mem_range.mp hi
          have h3 := hbtc3 i hi8
          have hbli := hbl i hi8
          rw [hpos1getD i hi8]
          congr 1
          by_cases hw : (bufs.getD i []).length ≤ pos.getD i 0 + btc
          · rw [if_pos hw]
            have heq : pos.getD i 0 + btc = (bufs.getD i []).length := by omega
            have h4 : k - (offset + btc) + (pos.getD i 0 + btc) = pos.getD i 0 + (k - offset) := by
              omega
            calc (0 + (k - (offset + btc))) % (bufs.getD i []).length
                = (k - (offset + btc)) % (bufs.getD i []).length := by rw [Nat.zero_add]
              _ = ((k - (offset + btc)) + (bufs.getD i []).length) % (bufs.getD i []).length := by
                  rw [Nat.add_mod_right]
              _ = (pos.getD i 0 + (k - offset)) % (bufs.getD i []).length := by
                  rw [← heq, h4]
          · rw [if_neg hw]
            have h4 : pos.getD i 0 + btc + (k - (offset + btc)) = pos.getD i 0 + (k - offset) := by
              omega
            rw [h4]
theorem segStrikes_mem (n : Nat) : ∀ (ps : List SPrime) (k b : Nat),
    (k, b) ∈ segStrikes n ps ↔ ∃ pr ∈ ps, (k, b) ∈ primeStrikes n pr := by
  intro ps
  induction ps with
  | nil => intro k b; simp [segStrikes]
  | cons pr ps ih =>
    intro k b
    rw [segStrikes, List.mem_append, ih]
    simp [List.mem_cons, exists_eq_or_imp]

theorem chunksOf_single {l1 : Nat} {sv : List Nat} (h0 : sv ≠ []) (hle : sv.length ≤ l1) :
    chunksOf l1 sv = [sv] := by
  match sv with
  | [] => exact absurd rfl h0
  | x :: rest =>
    rw [chunksOf]
    by_cases hz : l1 = 0
    · rw [if_pos hz]
    · rw [if_neg hz]
      rw [List.take_of_length_le hle, List.drop_of_length_le hle]
      have h2 : chunksOf l1 [] = [] := by rw [chunksOf]
      rw [h2]

theorem foldl_addSieving (qs : List Nat) (L : Nat) : ∀ es : EratSmall,
    (qs.foldl (fun es q => EratSmall.addSievingPrime es q L) es) =
      { es with primes := es.primes ++ qs.map (fun q => Wheel.addSievingPrime q L) } := by
  induction qs with
  | nil => intro es; simp
  | cons q qs ih =>
    intro es
    rw [List.foldl_cons, ih]
    unfold EratSmall.addSievingPrime
    simp

theorem getD_replicate (size v k : Nat) (h : k < size) :
    (List.replicate size v).getD k 0 = v := by
  rw [List.getD_eq_getElem _ 0 (by simp [h])]
  simp

theorem testBit_255 : ∀ b < 8, Nat.testBit 255 b = true := by decide

/-- The bits of the sieve produced by running the EratSmall strike machine,
with the sieving primes `qs` installed through the Wheel at segment base `L`,
over a single all-ones chunk: bit `b` of byte `k` survives iff no prime of
`qs` divides the represented integer `L + 30 k + rOff b`. -/
theorem crossOffPipeline_char (qs : List Nat) (L size : Nat)
    (hL : L % 30 = 0)
    (hq : ∀ q ∈ qs, 7 ≤ q ∧ Nat.gcd q 30 = 1)
    (hsz : 0 < size) :
    ∀ k b, k < size → b < 8 →
    (((crossOffChunks (qs.map (fun q => Wheel.addSievingPrime q L))
        (chunksOf size (List.replicate size 255))).2).getD k 0).testBit b
      = decide (∀ q ∈ qs, ¬ q ∣ (L + 30 * k + rOff b)) := by
  intro k b hk hb
  have hchunk : chunksOf size (List.replicate size 255) = [List.replicate size 255] :=
    chunksOf_single (by simp; omega) (by simp)
  rw [hchunk]
  rw [crossOffChunks, crossOffChunks]
  simp only [List.append_nil]
  rw [crossOffSeg_sim]
  have hlen : (List.replicate size 255).length = size := by simp
  rw [hlen]
  have hmem : ∀ k0 b0, (k0, b0) ∈ segStrikes size
      (qs.map (fun q => Wheel.addSievingPrime q L)) ↔
      ∃ q ∈ qs, k0 < size ∧ b0 < 8 ∧ q ∣ (L + 30 * k0 + rOff b0) := by
    intro k0 b0
    rw [segStrikes_mem]
    constructor
    · rintro ⟨pr, hpr, hin⟩
      obtain ⟨q, hqin, hqpr⟩ := List.mem_map.mp hpr
      rw [← hqpr] at hin
      obtain ⟨hq7, hqg⟩ := hq q hqin
      rw [primeStrikes_wheel hq7 hqg hL] at hin
      exact ⟨q, hqin, hin⟩
    · rintro ⟨q, hqin, h1, h2, h3⟩
      obtain ⟨hq7, hqg⟩ := hq q hqin
      refine ⟨Wheel.addSievingPrime q L, List.mem_map.mpr ⟨q, hqin, rfl⟩, ?_⟩
      rw [primeStrikes_wheel hq7 hqg hL]
      exact ⟨h1, h2, h3⟩
  rw [applyStrikes_testBit _ _ k b hb ?hbits]
  case hbits =>
    intro ib hib
    have := (hmem ib.1 ib.2).mp hib
    obtain ⟨q, _, _, h8, _⟩ := this
    exact h8
  rw [getD_replicate size 255 k hk, testBit_255 b hb, Bool.true_and]
  rw [decide_eq_decide]
  rw [hmem k b]
  push_neg
  constructor
  · intro h q hqin hdvd
    exact (h q hqin hk hb) hdvd
  · intro h q hqin _ _ hdvd
    exact (h q hqin) hdvd

theorem crossOffPipeline_length (ps : List SPrime) (size : Nat) (hsz : 0 < size) :
    ((crossOffChunks ps (chunksOf size (List.replicate size 255))).2).length = size := by
  rw [chunksOf_single (by simp; omega) (by simp)]
  rw [crossOffChunks, crossOffChunks]
  simp only [List.append_nil]
  rw [crossOffSeg_sim]
  rw [applyStrikes_length]
  simp

/-- `PreSieve::initBuffers`, one buffer, with the arithmetic side conditions
factored out: the built buffer has `product / 30` bytes and bit `b` of byte
`k` survives iff no assigned prime divides `30 k + rOff b`. -/
theorem initBuffer_char_gen (i : Nat)
    (h1 : ∀ q ∈ bufferPrimes i, 7 ≤ q ∧ Nat.gcd q 30 = 1)
    (h2 : (bufferPrimes i).foldl (fun a q => a * q) 30 % 30 = 0)
    (h3 : 0 < (bufferPrimes i).foldl (fun a q => a * q) 30 / 30)
    (h4 : ¬ ((bufferPrimes i).foldl (fun a q => a * q) 30 / 30 * 3 <
          (bufferPrimes i).getLast?.getD 0))
    (h5 : ∀ q ∈ bufferPrimes i, q ∣ (bufferPrimes i).foldl (fun a q => a * q) 30) :
    (initBuffer i).length = (bufferPrimes i).foldl (fun a q => a * q) 30 / 30 ∧
    ∀ k b, k < (bufferPrimes i).foldl (fun a q => a * q) 30 / 30 → b < 8 →
      ((initBuffer i).getD k 0).testBit b =
        decide (∀ q ∈ bufferPrimes i, ¬ q ∣ (30 * k + rOff b)) := by
  unfold initBuffer
  dsimp only
  unfold EratSmall.init
  rw [if_neg h4]
  dsimp only
  rw [foldl_addSieving]
  unfold EratSmall.crossOff
  dsimp only
  rw [List.nil_append]
  constructor
  · exact crossOffPipeline_length _ _ h3
  · intro k b hk hb
    rw [crossOffPipeline_char (bufferPrimes i) _ _ h2 h1 h3 k b hk hb]
    rw [decide_eq_decide]
    constructor
    · intro h q hqin hdvd
      apply h q hqin
      rw [Nat.add_assoc]
      exact Nat.dvd_add (h5 q hqin) hdvd
    · intro h q hqin hdvd
      apply h q hqin
      rw [Nat.add_assoc] at hdvd
      exact (Nat.dvd_add_right (h5 q hqin)).mp hdvd

/-- The eight pre-sieve buffers, characterized: buffer `i` has one byte per
30 integers of the product of its primes, and keeps exactly the bits whose
represented offset is divisible by none of them. -/
theorem initBuffer_spec : ∀ i < 8,
    (initBuffer i).length = (bufferPrimes i).foldl (fun a q => a * q) 30 / 30 ∧
    ∀ k b, k < (bufferPrimes i).foldl (fun a q => a * q) 30 / 30 → b < 8 →
      ((initBuffer i).getD k 0).testBit b =
        decide (∀ q ∈ bufferPrimes i, ¬ q ∣ (30 * k + rOff b)) := by
  intro i hi
  interval_cases i <;>
    exact initBuffer_char_gen _ (by decide) (by decide) (by decide) (by decide) (by decide)

theorem getD_map {α β : Type} (l : List α) (f : α → β) (i : Nat) (d : β) (dd : α)
    (h : i < l.length) : (l.map f).getD i d = f (l.getD i dd) := by
  rw [List.getD_eq_getElem _ d (by simp [h]), List.getD_eq_getElem _ dd h, List.getElem_map]

theorem map_range_getD2 {α : Type} (n i : Nat) (f : Nat → α) (d : α) (h : i < n) :
    ((List.range n).map f).getD i d = f i := by
  rw [List.getD_eq_getElem ((List.range n).map f) d (by simp [h])]
  rw [List.getElem_map, List.getElem_range]

theorem foldl_and_testBit (l : List Nat) (f : Nat → Nat) (b : Nat) : ∀ a : Nat,
    (l.foldl (fun acc x => acc &&& f x) a).testBit b =
      (a.testBit b && l.all fun x => (f x).testBit b) := by
  induction l with
  | nil => intro a; simp
  | cons x l ih =>
    intro a
    rw [List.foldl_cons, ih, List.all_cons, Nat.testBit_and, Bool.and_assoc]

/-- The copy loop of `PreSieve::preSieveLarge` succeeds (the `getD` fallback
is dead) and byte `k` of the output is the wrapped AND of the buffers at the
cursors derived from `segmentLow`. -/
theorem preSieveLarge_char (ps : PreSieveT) (sv : List Nat) (L : Nat)
    (hbl : ∀ i, i < ps.buffers.length → 0 < (ps.buffers.getD i []).length) :
    (preSieveLarge ps sv L).length = sv.length ∧
    ∀ k, k < sv.length → (preSieveLarge ps sv L).getD k 0 =
      andWrap ps.buffers (ps.buffers.map fun b => L % (b.length * 30) / 30) k := by
  unfold preSieveLarge
  dsimp only
  have hposinv : ∀ i, i < ps.buffers.length →
      (ps.buffers.map fun b => L % (b.length * 30) / 30).getD i 0 <
        (ps.buffers.getD i []).length := by
    intro i hi
    rw [getD_map _ _ i 0 [] hi]
    have h0 := hbl i hi
    show L % ((ps.buffers.getD i []).length * 30) / 30 < (ps.buffers.getD i []).length
    rw [Nat.div_lt_iff_lt_mul (show (0:ℕ) < 30 by omega)]
    exact Nat.mod_lt _ (by omega)
  have hfuel : sv.length - 0 < sv.length + 1 := by omega
  have hgen := psLoop_char ps.buffers hbl (sv.length + 1) 0
    (ps.buffers.map fun b => L % (b.length * 30) / 30) sv
  obtain ⟨out, hrun, hlen, hchar⟩ := hgen hposinv hfuel
  rw [hrun, Option.getD_some]
  refine ⟨hlen, ?_⟩
  intro k hk
  rw [hchar k hk, if_neg (by omega), Nat.sub_zero]

/-- The 22 pre-sieving primes (union of the eight `bufferPrimes` rows of
PreSieve.cpp). -/
def preSievePrimes : List Nat :=
  [7, 11, 13, 17, 19, 23, 29, 31, 37, 41, 43, 47, 53, 59, 61, 67, 71, 73, 79, 83, 89, 97]

theorem preSievePrimes_cover : ∀ q ∈ preSievePrimes, ∃ i, i < 8 ∧ q ∈ bufferPrimes i := by
  decide

theorem bufferPrimes_cover : ∀ i < 8, ∀ q ∈ bufferPrimes i, q ∈ preSievePrimes := by
  decide

theorem bufferProd_mod30 : ∀ i < 8,
    (bufferPrimes i).foldl (fun a q => a * q) 30 / 30 * 30 =
      (bufferPrimes i).foldl (fun a q => a * q) 30 := by
  decide

theorem bufferLen_pos : ∀ i < 8, 0 < (bufferPrimes i).foldl (fun a q => a * q) 30 / 30 := by
  decide

theorem bufferPrimes_dvd : ∀ i < 8, ∀ q ∈ bufferPrimes i,
    q ∣ (bufferPrimes i).foldl (fun a q => a * q) 30 := by
  decide

/-- Cursor-shift arithmetic: reading a purely periodic buffer at the wrapped
cursor tests divisibility of the absolute integer. -/
theorem dvd_shift {q len L k rb : Nat} (hL : L % 30 = 0) (hq : q ∣ len * 30)
    (_hlen : 0 < len) :
    (q ∣ 30 * ((L % (len * 30) / 30 + k) % len) + rb ↔ q ∣ L + 30 * k + rb) := by
  have e1 : 30 * (L % (len * 30) / 30) = L % (len * 30) := by
    apply Nat.mul_div_cancel'
    apply Nat.dvd_of_mod_eq_zero
    rw [Nat.mod_mod_of_dvd _ ⟨len, by ring⟩, hL]
  have e2 : L % (len * 30) + len * 30 * (L / (len * 30)) = L := Nat.mod_add_div _ _
  have e3 : len * ((L % (len * 30) / 30 + k) / len) + (L % (len * 30) / 30 + k) % len =
      L % (len * 30) / 30 + k := Nat.div_add_mod _ _
  have hd : len * 30 * ((L % (len * 30) / 30 + k) / len + L / (len * 30)) =
      30 * (len * ((L % (len * 30) / 30 + k) / len)) + len * 30 * (L / (len * 30)) := by
    ring
  have key : L + 30 * k + rb =
      len * 30 * ((L % (len * 30) / 30 + k) / len + L / (len * 30)) +
        (30 * ((L % (len * 30) / 30 + k) % len) + rb) := by
    omega
  rw [key, Nat.dvd_add_right (Dvd.dvd.mul_right hq _)]

/-- Bit `b` of the wrapped AND of the eight built buffers at cursor base
`segmentLow` tests indivisibility by all 22 pre-sieving primes. -/
theorem andWrap_built_testBit (ps0 : PreSieveT) (L k b : Nat) (hb : b < 8)
    (hL : L % 30 = 0) :
    (andWrap (PreSieveT.initBuffers ps0).buffers
      ((PreSieveT.initBuffers ps0).buffers.map fun bl => L % (bl.length * 30) / 30)
      k).testBit b
      = decide (∀ q ∈ preSievePrimes, ¬ q ∣ (L + 30 * k + rOff b)) := by
  have hBB : (PreSieveT.initBuffers ps0).buffers = (List.range 8).map initBuffer := rfl
  have hlen8 : (PreSieveT.initBuffers ps0).buffers.length = 8 := by rw [hBB]; simp
  unfold andWrap
  rw [foldl_and_testBit, testBit_255 b hb, Bool.true_and]
  have hbyte : ∀ i < 8,
      (((PreSieveT.initBuffers ps0).buffers.getD i []).getD
        ((((PreSieveT.initBuffers ps0).buffers.map fun bl =>
            L % (bl.length * 30) / 30).getD i 0 + k) %
          ((PreSieveT.initBuffers ps0).buffers.getD i []).length) 0).testBit b
        = decide (∀ q ∈ bufferPrimes i, ¬ q ∣ (L + 30 * k + rOff b)) := by
    intro i hi
    have hgi : (PreSieveT.initBuffers ps0).buffers.getD i [] = initBuffer i := by
      rw [hBB, map_range_getD2 8 i initBuffer [] hi]
    obtain ⟨hleni, hbits⟩ := initBuffer_spec i hi
    have hpos : ((PreSieveT.initBuffers ps0).buffers.map fun bl =>
        L % (bl.length * 30) / 30).getD i 0 =
        L % ((initBuffer i).length * 30) / 30 := by
      rw [getD_map _ _ i 0 [] (by omega), hgi]
    rw [hgi, hpos]
    have hlp : 0 < (initBuffer i).length := by
      rw [hleni]; exact bufferLen_pos i hi
    have hm : (L % ((initBuffer i).length * 30) / 30 + k) % (initBuffer i).length <
        (initBuffer i).length := Nat.mod_lt _ (by omega)
    rw [hbits _ b (by rw [← hleni]; exact hm) hb]
    rw [decide_eq_decide]
    constructor
    · intro h q hqin hdvd
      apply h q hqin
      exact (dvd_shift hL (by
        rw [hleni, bufferProd_mod30 i hi]
        exact bufferPrimes_dvd i hi q hqin) hlp).mpr hdvd
    · intro h q hqin hdvd
      apply h q hqin
      exact (dvd_shift hL (by
        rw [hleni, bufferProd_mod30 i hi]
        exact bufferPrimes_dvd i hi q hqin) hlp).mp hdvd
  rw [Bool.eq_iff_iff, List.all_eq_true, decide_eq_true_eq]
  constructor
  · intro h q hq
    obtain ⟨i, hi8, hqin⟩ := preSievePrimes_cover q hq
    have := h i (by rw [hlen8] at *; exact List.mem_range.mpr hi8)
    rw [hbyte i hi8, decide_eq_true_eq] at this
    exact this q hqin
  · intro h i hi
    have hi8 : i < 8 := by
      rw [hlen8] at hi
      exact List.mem_range.mp hi
    rw [hbyte i hi8, decide_eq_true_eq]
    intro q hqin
    exact h q (bufferPrimes_cover i hi8 q hqin)

theorem getD_set (sv : List Nat) (i v k : Nat) :
    (sv.set i v).getD k 0 = if k = i ∧ i < sv.length then v else sv.getD k 0 := by
  by_cases h1 : k = i ∧ i < sv.length
  · obtain ⟨hk, hi⟩ := h1
    subst hk
    rw [if_pos ⟨rfl, hi⟩, List.getD_eq_getElem?_getD, List.getElem?_set_self (by omega)]
    rfl
  · rw [if_neg h1]
    by_cases hk : k = i
    · subst hk
      have hlen : sv.length ≤ k := by
        rcases Nat.lt_or_ge k sv.length with h | h
        · exact absurd ⟨rfl, h⟩ h1
        · exact h
      rw [List.set_eq_of_length_le hlen]
    · rw [List.getD_eq_getElem?_getD, List.getD_eq_getElem?_getD,
        List.getElem?_set_ne (by omega)]

theorem length_set_chain (sv : List Nat) (i v : Nat) : (sv.set i v).length = sv.length :=
  List.length_set sv i v

/-- `PreSieve::preSieve`: the corrections after the small/large copy
overwrite byte `k` with the constant `[0xff, 0xef, 0x77, 0x3f]` entry for
absolute byte `segmentLow / 30 + k` whenever that index is below 4. -/
theorem preSieve_getD (ps : PreSieveT) (sv : List Nat) (L : Nat) (hL : L % 30 = 0)
    (k : Nat) :
    (preSieve ps sv L).getD k 0 =
      if L / 30 + k < 4 ∧
          k < (if ps.buffers.headD [] = [] then preSieveSmall sv L
               else preSieveLarge ps sv L).length then
        [255, 239, 119, 63].getD (L / 30 + k) 0
      else (if ps.buffers.headD [] = [] then preSieveSmall sv L
            else preSieveLarge ps sv L).getD k 0 := by
  unfold preSieve
  dsimp only
  have hv1 : (255 ^^^ 1 <<< 4 : Nat) = 239 := by decide
  have hv2 : (255 ^^^ 1 <<< 3 ^^^ 1 <<< 7 : Nat) = 119 := by decide
  have hv3 : (255 ^^^ 1 <<< 6 ^^^ 1 <<< 7 : Nat) = 63 := by decide
  rw [hv1, hv2, hv3]
  set sv1 := if ps.buffers.headD [] = [] then preSieveSmall sv L else preSieveLarge ps sv L
    with hsv1
  by_cases hc1 : L < 30
  · rw [if_pos hc1, if_pos (by omega), if_pos (by omega), if_pos (by omega)]
    dsimp only
    rw [getD_set, getD_set, getD_set, getD_set]
    simp only [List.length_set]
    have ht : L / 30 = 0 := by omega
    rw [ht]
    by_cases hk0 : k = 0
    · subst hk0
      by_cases hl : 0 < sv1.length
      · rw [if_neg (by omega), if_neg (by omega), if_neg (by omega), if_pos ⟨rfl, hl⟩,
          if_pos ⟨by omega, hl⟩]; rfl
      · rw [if_neg (by omega), if_neg (by omega), if_neg (by omega), if_neg (by omega),
          if_neg (by omega)]
    · by_cases hk1 : k = 1
      · subst hk1
        by_cases hl : 1 < sv1.length
        · rw [if_neg (by omega), if_neg (by omega), if_pos ⟨rfl, hl⟩, if_pos ⟨by omega, hl⟩]; rfl
        · rw [if_neg (by omega), if_neg (by omega), if_neg (by omega), if_neg (by omega),
            if_neg (by omega)]
      · by_cases hk2 : k = 2
        · subst hk2
          by_cases hl : 2 < sv1.length
          · rw [if_neg (by omega), if_pos ⟨rfl, hl⟩, if_pos ⟨by omega, hl⟩]; rfl
          · rw [if_neg (by omega), if_neg (by omega), if_neg (by omega), if_neg (by omega), if_neg (by omega)]
        · by_cases hk3 : k = 3
          · subst hk3
            by_cases hl : 3 < sv1.length
            · rw [if_pos ⟨rfl, hl⟩, if_pos ⟨by omega, hl⟩]; rfl
            · rw [if_neg (by omega), if_neg (by omega), if_neg (by omega), if_neg (by omega), if_neg (by omega)]
          · rw [if_neg (by omega), if_neg (by omega), if_neg (by omega), if_neg (by omega),
              if_neg (by omega)]
  · rw [if_neg hc1]
    by_cases hc2 : L < 60
    · rw [if_pos hc2, if_pos (by omega), if_pos (by omega)]
      dsimp only
      rw [getD_set, getD_set, getD_set]
      simp only [List.length_set]
      have ht : L / 30 = 1 := by omega
      rw [ht]
      by_cases hk0 : k = 0
      · subst hk0
        by_cases hl : 0 < sv1.length
        · rw [if_neg (by omega), if_neg (by omega), if_pos ⟨rfl, hl⟩, if_pos ⟨by omega, hl⟩]; rfl
        · rw [if_neg (by omega), if_neg (by omega), if_neg (by omega), if_neg (by omega)]
      · by_cases hk1 : k = 1
        · subst hk1
          by_cases hl : 1 < sv1.length
          · rw [if_neg (by omega), if_pos ⟨rfl, hl⟩, if_pos ⟨by omega, hl⟩]; rfl
          · rw [if_neg (by omega), if_neg (by omega), if_neg (by omega), if_neg (by omega)]
        · by_cases hk2 : k = 2
          · subst hk2
            by_cases hl : 2 < sv1.length
            · rw [if_pos ⟨rfl, hl⟩, if_pos ⟨by omega, hl⟩]; rfl
            · rw [if_neg (by omega), if_neg (by omega), if_neg (by omega), if_neg (by omega)]
          · rw [if_neg (by omega), if_neg (by omega), if_neg (by omega), if_neg (by omega)]
    · rw [if_neg hc2]
      by_cases hc3 : L < 90
      · rw [if_pos hc3, if_pos (by omega)]
        dsimp only
        rw [getD_set, getD_set]
        simp only [List.length_set]
        have ht : L / 30 = 2 := by omega
        rw [ht]
        by_cases hk0 : k = 0
        · subst hk0
          by_cases hl : 0 < sv1.length
          · rw [if_neg (by omega), if_pos ⟨rfl, hl⟩, if_pos ⟨by omega, hl⟩]; rfl
          · rw [if_neg (by omega), if_neg (by omega), if_neg (by omega)]
        · by_cases hk1 : k = 1
          · subst hk1
            by_cases hl : 1 < sv1.length
            · rw [if_pos ⟨rfl, hl⟩, if_pos ⟨by omega, hl⟩]; rfl
            · rw [if_neg (by omega), if_neg (by omega), if_neg (by omega)]
          · rw [if_neg (by omega), if_neg (by omega), if_neg (by omega)]
      · rw [if_neg hc3]
        by_cases hc4 : L < 120
        · rw [if_pos hc4]
          dsimp only
          rw [getD_set]
          have ht : L / 30 = 3 := by omega
          rw [ht]
          by_cases hk0 : k = 0
          · subst hk0
            by_cases hl : 0 < sv1.length
            · rw [if_pos ⟨rfl, hl⟩, if_pos ⟨by omega, hl⟩]; rfl
            · rw [if_neg (by omega), if_neg (by omega)]
          · rw [if_neg (by omega), if_neg (by omega)]
        · rw [if_neg hc4]
          dsimp only
          rw [if_neg (by omega)]

theorem getD_drop (l : List Nat) (i j : Nat) : (l.drop i).getD j 0 = l.getD (i + j) 0 := by
  rw [List.getD_eq_getElem?_getD, List.getD_eq_getElem?_getD, List.getElem?_drop]

/-- The tiling tail of `preSieveSmall`: from restart index `i` on, byte `t`
is byte `t mod 1001` of the static buffer. -/
theorem psTile_spec : ∀ fuel n i, n - i ≤ fuel →
    (psTile n i).length = n - i ∧
    (∀ t, t < n - i → (psTile n i).getD t 0 = buffer_7_11_13.getD (t % 1001) 0) := by
  intro fuel
  induction fuel with
  | zero =>
    intro n i hf
    rw [psTile, if_neg (by omega)]
    have h0 : n - i = 0 := by omega
    rw [h0]
    exact ⟨by simp, by intro t ht; omega⟩
  | succ fuel ih =>
    intro n i hf
    rw [psTile]
    have hblen : buffer_7_11_13.length = 1001 := rfl
    by_cases hc : i + 1001 < n
    · rw [if_pos hc]
      have htake : buffer_7_11_13.take 1001 = buffer_7_11_13 :=
        List.take_of_length_le (by rw [hblen])
      obtain ⟨ihl, ihg⟩ := ih n (i + 1001) (by omega)
      constructor
      · rw [List.length_append, htake, hblen, ihl]
        omega
      · intro t ht
        by_cases ht1 : t < 1001
        · rw [getD_append_left (by rw [htake, hblen]; omega)]
          rw [htake, Nat.mod_eq_of_lt ht1]
        · rw [getD_append_right (by rw [htake, hblen]; omega)]
          rw [htake, hblen]
          rw [ihg (t - 1001) (by omega)]
          have h2 : t % 1001 = (t - 1001) % 1001 := by
            conv_lhs => rw [show t = t - 1001 + 1001 by omega]
            exact Nat.add_mod_right _ _
          rw [h2]
    · rw [if_neg hc]
      constructor
      · rw [List.length_take, hblen]
        omega
      · intro t ht
        rw [getD_take ht, Nat.mod_eq_of_lt (by omega)]

/-- `PreSieve::preSieveSmall`: both the single-copy branch and the
tail-copy-plus-tiling branch write the periodic extension of the 1001-byte
static buffer, entered at byte `(segmentLow mod 30030) / 30`. -/
theorem preSieveSmall_char (sv : List Nat) (L : Nat) :
    (preSieveSmall sv L).length = sv.length ∧
    ∀ j, j < sv.length → (preSieveSmall sv L).getD j 0 =
      buffer_7_11_13.getD ((L % 30030 / 30 + j) % 1001) 0 := by
  unfold preSieveSmall
  dsimp only
  have hblen : buffer_7_11_13.length = 1001 := rfl
  rw [hblen]
  have h30 : (1001 * 30 : Nat) = 30030 := by norm_num
  rw [h30]
  have hi1001 : L % 30030 / 30 < 1001 := by
    rw [Nat.div_lt_iff_lt_mul (show (0:ℕ) < 30 by norm_num)]
    have := Nat.mod_lt L (show 0 < 30030 by norm_num)
    omega
  have hdrop_len : (buffer_7_11_13.drop (L % 30030 / 30)).length = 1001 - L % 30030 / 30 := by
    rw [List.length_drop, hblen]
  by_cases hbr : sv.length ≤ 1001 - L % 30030 / 30
  · rw [if_pos hbr]
    constructor
    · rw [List.length_take, hdrop_len]
      omega
    · intro j hj
      rw [getD_take hj, getD_drop,
        Nat.mod_eq_of_lt (show L % 30030 / 30 + j < 1001 by omega)]
  · rw [if_neg hbr]
    push_neg at hbr
    have htack : (buffer_7_11_13.drop (L % 30030 / 30)).take (1001 - L % 30030 / 30) =
        buffer_7_11_13.drop (L % 30030 / 30) :=
      List.take_of_length_le (by rw [hdrop_len])
    obtain ⟨htl, htg⟩ := psTile_spec sv.length sv.length (1001 - L % 30030 / 30)
      (Nat.sub_le _ _)
    constructor
    · rw [List.length_append, htack, hdrop_len, htl]
      omega
    · intro j hj
      by_cases hj1 : j < 1001 - L % 30030 / 30
      · rw [getD_append_left (by rw [htack, hdrop_len]; omega)]
        rw [htack, getD_drop,
          Nat.mod_eq_of_lt (show L % 30030 / 30 + j < 1001 by omega)]
      · rw [getD_append_right (by rw [htack, hdrop_len]; omega)]
        rw [htack, hdrop_len]
        rw [htg (j - (1001 - L % 30030 / 30)) (by omega)]
        have h2 : (L % 30030 / 30 + j) % 1001 =
            (j - (1001 - L % 30030 / 30)) % 1001 := by
          conv_lhs => rw [show L % 30030 / 30 + j =
            (j - (1001 - L % 30030 / 30)) + 1001 by omega]
          exact Nat.add_mod_right _ _
        rw [h2]

/-- Modelled from the spec: the residue-to-bit table of spec section 3
(bit 0 holds residue 1, bit 1 residue 7, ..., bit 7 residue 29), stated for
comparison with the layout the code actually uses (`rOff`). -/
def specResidue : Nat → Nat
  | 0 => 1
  | 1 => 7
  | 2 => 11
  | 3 => 13
  | 4 => 17
  | 5 => 19
  | 6 => 23
  | _ => 29

theorem corr_testBit : ∀ t < 4, ∀ b < 8,
    (([255, 239, 119, 63].getD t 0).testBit b) =
      decide ((∀ q ∈ preSievePrimes, ¬ q ∣ (30 * t + rOff b)) ∨
        (30 * t + rOff b) ∈ preSievePrimes) := by
  decide

theorem preSievePrimes_le : ∀ q ∈ preSievePrimes, q ≤ 97 := by decide

theorem built_hbl (ps0 : PreSieveT) : ∀ i, i < (PreSieveT.initBuffers ps0).buffers.length →
    0 < ((PreSieveT.initBuffers ps0).buffers.getD i []).length := by
  intro i hi
  have hBB : (PreSieveT.initBuffers ps0).buffers = (List.range 8).map initBuffer := rfl
  have h8 : i < 8 := by
    rw [hBB] at hi
    simpa using hi
  rw [hBB, map_range_getD2 8 i initBuffer [] h8, (initBuffer_spec i h8).1]
  exact bufferLen_pos i h8

theorem headD_eq_getD (l : List (List Nat)) : l.headD [] = l.getD 0 [] := by
  cases l <;> rfl

theorem built_head (ps0 : PreSieveT) : (PreSieveT.initBuffers ps0).buffers.headD [] ≠ [] := by
  have h1 := built_hbl ps0 0 (by
    have hBB : (PreSieveT.initBuffers ps0).buffers = (List.range 8).map initBuffer := rfl
    rw [hBB]
    simp)
  intro h
  rw [headD_eq_getD] at h
  rw [h] at h1
  simp at h1

theorem psLoop_isSome (bufs : List (List Nat))
    (hbl : ∀ i, i < bufs.length → 0 < (bufs.getD i []).length)
    (pos sv : List Nat)
    (hpos : ∀ i, i < bufs.length → pos.getD i 0 < (bufs.getD i []).length) :
    (psLoop bufs (sv.length + 1) 0 pos sv).isSome = true := by
  have hgen := psLoop_char bufs hbl (sv.length + 1) 0 pos sv
  obtain ⟨out, hrun, _, _⟩ := hgen hpos (by omega)
  rw [hrun]
  rfl

theorem built_period (ps0 : PreSieveT) : ∀ b ∈ (PreSieveT.initBuffers ps0).buffers,
    b.length * 30 ∣
      (998970 * 987690 * 989430 * 1000110 * 1008330 * 1005330 * 229890 * 221610) := by
  intro b hb
  have hBB : (PreSieveT.initBuffers ps0).buffers = (List.range 8).map initBuffer := rfl
  rw [hBB] at hb
  obtain ⟨i, hi, hbi⟩ := List.mem_map.mp hb
  have hi8 : i < 8 := List.mem_range.mp hi
  rw [← hbi, (initBuffer_spec i hi8).1]
  interval_cases i <;> decide

/-- C1 (amended): after the large buffers are built, `PreSieve::preSieve`
sets bit `b` of byte `k` iff the integer `segmentLow + 30 k + rOff b` —
with the byte layout the code actually uses, bits 0..7 holding residues
7, 11, 13, 17, 19, 23, 29, 31 — is divisible by none of the 22 pre-sieving
primes, or is itself one of those primes.  Unlike the spec's account, 49 is
crossed off (not left set) and the spec's section-3 residue-to-bit table
does not match the code (see the counterexample). -/
theorem preSieve_built_bits (ps0 : PreSieveT) (sv : List Nat) (L k b : Nat)
    (hL : L % 30 = 0) (hk : k < sv.length) (hb : b < 8) :
    ((preSieve (PreSieveT.initBuffers ps0) sv L).getD k 0).testBit b =
      decide ((∀ q ∈ preSievePrimes, ¬ q ∣ (L + 30 * k + rOff b)) ∨
        (L + 30 * k + rOff b) ∈ preSievePrimes) := by
  obtain ⟨hlen, hbyte⟩ := preSieveLarge_char (PreSieveT.initBuffers ps0) sv L (built_hbl ps0)
  rw [preSieve_getD _ _ _ hL k]
  rw [if_neg (built_head ps0)]
  by_cases hcor : L / 30 + k < 4 ∧ k < (preSieveLarge (PreSieveT.initBuffers ps0) sv L).length
  · rw [if_pos hcor]
    have hx : L + 30 * k = 30 * (L / 30 + k) := by omega
    rw [hx, corr_testBit (L / 30 + k) hcor.1 b hb]
  · rw [if_neg hcor]
    rw [hbyte k hk, andWrap_built_testBit ps0 L k b hb hL, decide_eq_decide]
    have h4 : 4 ≤ L / 30 + k := by
      by_contra hcon
      push_neg at hcon
      exact hcor ⟨hcon, by omega⟩
    have hbig : 97 < L + 30 * k + rOff b := by
      have h7 := (rOff_range b hb).1
      omega
    constructor
    · exact fun h => Or.inl h
    · rintro (h | h)
      · exact h
      · exfalso
        have := preSievePrimes_le _ h
        omega

/-- C1 counterexample: at `segmentLow = 0` a fresh PreSieve leaves bit 4 of
byte 1 cleared (it holds 49 = 7 · 7 under the code's layout), while the
claim's section-3 table reads that bit as residue 17, i.e. the prime 47,
which the claim requires to be left set. -/
theorem preSieve_spec_table_cex :
    ((preSieve PreSieveT.initial [0, 0] 0).getD 1 0).testBit 4 = false ∧
    (0 + 30 * 1 + specResidue 4) ∈ preSievePrimes :=
  ⟨by decide, by decide⟩

/-- C1 witness: the amended theorem at segmentLow 0, a one-byte sieve,
byte 0, bit 0. -/
theorem preSieve_built_bits_witness :
    (0 : Nat) % 30 = 0 ∧ 0 < ([0] : List Nat).length ∧ (0 : Nat) < 8 ∧
    ((preSieve (PreSieveT.initBuffers PreSieveT.initial) [0] 0).getD 0 0).testBit 0 =
      decide ((∀ q ∈ preSievePrimes, ¬ q ∣ (0 + 30 * 0 + rOff 0)) ∨
        (0 + 30 * 0 + rOff 0) ∈ preSievePrimes) :=
  ⟨rfl, by decide, by decide,
   preSieve_built_bits PreSieveT.initial [0] 0 0 0 rfl (by decide) (by decide)⟩

/-- C2 (amended): installing a prime q (coprime to 30, q ≥ 7) through the
Wheel at a segment base L ≡ 0 (mod 30) and crossing off an all-ones n-byte
segment clears exactly the bits whose integer `L + 30 k + rOff b` is a
multiple of q, under the byte layout the code actually uses (bits 0..7 hold
residues 7..31, byte k covering [L + 30 k + 7, L + 30 k + 31]); the spec's
section-3 residue-to-bit table is wrong about which integers the bits
denote (see the counterexample). -/
theorem eratSmall_crossOff_bits (q L n k b : Nat) (hq7 : 7 ≤ q)
    (hqg : Nat.gcd q 30 = 1) (hL : L % 30 = 0) (hk : k < n) (hb : b < 8) :
    (((crossOffSeg n [Wheel.addSievingPrime q L]
        (List.replicate n 255) true).2.1.getD k 0).testBit b)
      = decide (¬ q ∣ (L + 30 * k + rOff b)) := by
  rw [crossOffSeg_sim]
  dsimp only
  have hseg : segStrikes n [Wheel.addSievingPrime q L] =
      primeStrikes n (Wheel.addSievingPrime q L) := by
    rw [segStrikes, segStrikes, List.append_nil]
  rw [hseg]
  rw [applyStrikes_testBit _ _ k b hb ?hbits]
  case hbits =>
    intro ib hib
    have hmem := (primeStrikes_wheel hq7 hqg hL ib.1 ib.2).mp hib
    exact hmem.2.1
  rw [getD_replicate n 255 k hk, testBit_255 b hb, Bool.true_and]
  rw [decide_eq_decide]
  rw [primeStrikes_wheel hq7 hqg hL k b]
  constructor
  · intro hnm hdvd
    exact hnm ⟨hk, hb, hdvd⟩
  · intro hnd hm
    exact hnd hm.2.2

/-- C2 counterexample: with p = 7, segmentLow = 0, a two-byte all-ones
segment, crossOff clears bit 0 of byte 0; under the spec's section-3 table
that bit denotes the integer 1, which is not a multiple of 7 (the cleared
bit actually denotes 7). -/
theorem eratSmall_bit_table_cex :
    (((crossOffSeg 2 [Wheel.addSievingPrime 7 0]
        (List.replicate 2 255) true).2.1.getD 0 0).testBit 0 = false) ∧
    ¬ (7 ∣ (0 + 30 * 0 + specResidue 0)) :=
  ⟨by decide, by decide⟩

/-- C2 witness: the amended theorem at q = 7, L = 0, n = 2, byte 1, bit 4
(the multiple 49). -/
theorem eratSmall_crossOff_bits_witness :
    7 ≤ 7 ∧ Nat.gcd 7 30 = 1 ∧ (0 : Nat) % 30 = 0 ∧ 1 < 2 ∧ 4 < 8 ∧
    ((((crossOffSeg 2 [Wheel.addSievingPrime 7 0]
        (List.replicate 2 255) true).2.1.getD 1 0).testBit 4)
      = decide (¬ 7 ∣ (0 + 30 * 1 + rOff 4))) :=
  ⟨by decide, by decide, rfl, by decide, by decide,
   eratSmall_crossOff_bits 7 0 2 1 4 (by decide) (by decide) rfl (by decide) (by decide)⟩

/-- C3: the strike sequence is resumable: one inner crossOff pass over a
whole segment produces the same final sieve bytes and the same updated
(multipleIndex, wheelIndex) records as a pass over the first `mid` bytes
followed by a pass over the rest with the saved records carried across. -/
theorem crossOffSeg_resumable (ps : List SPrime) (sv : List Nat) (mid : Nat)
    (hmid : mid ≤ sv.length) :
    (crossOffSeg sv.length ps sv true).1 =
      (crossOffSeg (sv.length - mid)
        ((crossOffSeg mid ps (sv.take mid) true).1) (sv.drop mid) true).1 ∧
    (crossOffSeg sv.length ps sv true).2.1 =
      (crossOffSeg mid ps (sv.take mid) true).2.1 ++
        (crossOffSeg (sv.length - mid)
          ((crossOffSeg mid ps (sv.take mid) true).1) (sv.drop mid) true).2.1 := by
  simp only [crossOffSeg_sim]
  constructor
  · rw [List.map_map]
    apply List.map_congr_left
    intro pr _
    have hc := (primeNext_comp hmid pr).1
    simpa using hc
  · exact seg_split ps sv.length mid sv hmid hmid

/-- C3 witness: a single stored prime record over a two-byte segment split
at byte 1. -/
theorem crossOffSeg_resumable_witness :
    1 ≤ ([255, 255] : List Nat).length ∧
    ((crossOffSeg ([255, 255] : List Nat).length [(⟨0, 0, 0⟩ : SPrime)] [255, 255] true).1 =
      (crossOffSeg (([255, 255] : List Nat).length - 1)
        ((crossOffSeg 1 [(⟨0, 0, 0⟩ : SPrime)] (([255, 255] : List Nat).take 1) true).1)
        (([255, 255] : List Nat).drop 1) true).1 ∧
     (crossOffSeg ([255, 255] : List Nat).length [(⟨0, 0, 0⟩ : SPrime)] [255, 255] true).2.1 =
      (crossOffSeg 1 [(⟨0, 0, 0⟩ : SPrime)] (([255, 255] : List Nat).take 1) true).2.1 ++
        (crossOffSeg (([255, 255] : List Nat).length - 1)
          ((crossOffSeg 1 [(⟨0, 0, 0⟩ : SPrime)] (([255, 255] : List Nat).take 1) true).1)
          (([255, 255] : List Nat).drop 1) true).2.1) :=
  ⟨by decide, crossOffSeg_resumable [⟨0, 0, 0⟩] [255, 255] 1 (by decide)⟩

/-- C4: EratSmall::init fails with the configuration error iff
maxPrime > l1CacheSize · 3; the validation precedes every assignment, so on
the error path the instance is returned unchanged (no state is modified),
and on success the parameters are recorded; (stop, 1024, 4000) always
raises. -/
theorem eratSmall_init_validates (es : EratSmall) (stop l1 maxP : Nat) :
    ((∃ msg, EratSmall.init es stop l1 maxP = Except.error msg) ↔ l1 * 3 < maxP) ∧
    (∃ msg, EratSmall.init es stop 1024 4000 = Except.error msg) ∧
    (¬ l1 * 3 < maxP → EratSmall.init es stop l1 maxP =
      Except.ok { es with
        enabled := true
        maxPrime := maxP
        l1CacheSize := l1
        stop := stop }) := by
  refine ⟨?_, ?_, ?_⟩
  · unfold EratSmall.init
    by_cases h : l1 * 3 < maxP
    · rw [if_pos h]
      exact ⟨fun _ => h, fun _ => ⟨_, rfl⟩⟩
    · rw [if_neg h]
      constructor
      · rintro ⟨msg, hmsg⟩
        simp at hmsg
      · intro hcon
        exact absurd hcon h
  · unfold EratSmall.init
    rw [if_pos (by norm_num)]
    exact ⟨_, rfl⟩
  · intro h
    unfold EratSmall.init
    rw [if_neg h]

/-- C5 (amended): the large pre-sieve is periodic in segmentLow with period
any common multiple P of the eight buffer spans size_i · 30; the spec's
buffersDist — the SUM of the spans — is not such a period and the claimed
identity fails for it (see the counterexample). -/
theorem preSieveLarge_periodic (ps : PreSieveT) (P : Nat)
    (hP : ∀ b ∈ ps.buffers, b.length * 30 ∣ P) (K Δ : Nat) (sv : List Nat) :
    preSieveLarge ps sv (K * P + Δ) = preSieveLarge ps sv Δ := by
  unfold preSieveLarge
  dsimp only
  have hmap : (ps.buffers.map fun b => (K * P + Δ) % (b.length * 30) / 30) =
      ps.buffers.map fun b => Δ % (b.length * 30) / 30 := by
    apply List.map_congr_left
    intro b hb
    obtain ⟨c, hc⟩ := hP b hb
    have h1 : K * P + Δ = Δ + b.length * 30 * (K * c) := by
      rw [hc]; ring
    rw [h1, Nat.add_mul_mod_self_left]
  rw [hmap]

/-- C5 counterexample: at K = 1, Δ = 0, a one-byte sieve, the large
pre-sieve at segmentLow = buffersDist differs from segmentLow = 0: byte 0
at base 0 is 0 (7, 11, ..., 31 are all struck by their own buffers), while
at base buffersDist bit 1 survives (no pre-sieving prime divides
buffersDist + 11). -/
theorem preSieveLarge_buffersDist_cex :
    preSieveLarge (PreSieveT.initBuffers PreSieveT.initial) [255] (1 * buffersDist + 0) ≠
      preSieveLarge (PreSieveT.initBuffers PreSieveT.initial) [255] 0 := by
  intro heq
  obtain ⟨hl1, hb1⟩ := preSieveLarge_char (PreSieveT.initBuffers PreSieveT.initial)
    [255] (1 * buffersDist + 0) (built_hbl PreSieveT.initial)
  obtain ⟨hl2, hb2⟩ := preSieveLarge_char (PreSieveT.initBuffers PreSieveT.initial)
    [255] 0 (built_hbl PreSieveT.initial)
  have e1 : ((preSieveLarge (PreSieveT.initBuffers PreSieveT.initial) [255]
      (1 * buffersDist + 0)).getD 0 0).testBit 1 = true := by
    rw [hb1 0 (by decide),
      andWrap_built_testBit PreSieveT.initial (1 * buffersDist + 0) 0 1 (by decide) (by decide)]
    decide
  have e2 : ((preSieveLarge (PreSieveT.initBuffers PreSieveT.initial) [255]
      0).getD 0 0).testBit 1 = false := by
    rw [hb2 0 (by decide),
      andWrap_built_testBit PreSieveT.initial 0 0 1 (by decide) (by decide)]
    decide
  rw [heq] at e1
  rw [e1] at e2
  exact absurd e2 (by decide)

/-- C5 witness: the amended theorem at the product of the eight buffer
spans, K = 1, Δ = 0, a one-byte sieve. -/
theorem preSieveLarge_periodic_witness :
    (∀ b ∈ (PreSieveT.initBuffers PreSieveT.initial).buffers, b.length * 30 ∣
      (998970 * 987690 * 989430 * 1000110 * 1008330 * 1005330 * 229890 * 221610)) ∧
    preSieveLarge (PreSieveT.initBuffers PreSieveT.initial) [255]
        (1 * (998970 * 987690 * 989430 * 1000110 * 1008330 * 1005330 * 229890 * 221610) + 0) =
      preSieveLarge (PreSieveT.initBuffers PreSieveT.initial) [255] 0 :=
  ⟨built_period PreSieveT.initial,
   preSieveLarge_periodic (PreSieveT.initBuffers PreSieveT.initial) _
     (built_period PreSieveT.initial) 1 0 [255]⟩

/-- C6 (amended): PreSieve::init returns at once — the whole state
unchanged — whenever the large buffers are already built; before they are
built a repeated call accumulates totalDist again, so init is not
idempotent in general (see the counterexample). -/
theorem preSieve_init_built_noop (ps : PreSieveT) (start stop : Nat)
    (h : ps.buffers.headD [] ≠ []) : PreSieveT.init ps start stop = ps := by
  unfold PreSieveT.init
  rw [if_pos h]

/-- C6 counterexample: on a fresh instance, init(0, 30) followed by the
identical init(0, 30) leaves totalDist = 60, not 30: the second call is not
a no-op. -/
theorem preSieve_init_not_idempotent :
    PreSieveT.init (PreSieveT.init PreSieveT.initial 0 30) 0 30 ≠
      PreSieveT.init PreSieveT.initial 0 30 := by
  have hd : max (max 0 30 - 0) (Nat.sqrt 30) = 30 := by
    have h1 : Nat.sqrt 30 ≤ 30 := Nat.sqrt_le_self 30
    omega
  have h1 : PreSieveT.init PreSieveT.initial 0 30 =
      { buffers := List.replicate 8 [], totalDist := 30, maxPrime := 0 } := by
    unfold PreSieveT.init
    rw [if_neg (by decide)]
    dsimp only
    rw [hd, if_pos (by decide)]
    rfl
  have h2 : PreSieveT.init
      { buffers := List.replicate 8 [], totalDist := 30, maxPrime := 0 } 0 30 =
      { buffers := List.replicate 8 [], totalDist := 60, maxPrime := 0 } := by
    unfold PreSieveT.init
    rw [if_neg (by decide)]
    dsimp only
    rw [hd, if_pos (by decide)]
  rw [h1, h2]
  decide

/-- C6 witness: the amended theorem on the built state. -/
theorem preSieve_init_built_noop_witness :
    (PreSieveT.initBuffers PreSieveT.initial).buffers.headD [] ≠ [] ∧
    PreSieveT.init (PreSieveT.initBuffers PreSieveT.initial) 0 30 =
      PreSieveT.initBuffers PreSieveT.initial :=
  ⟨built_head PreSieveT.initial,
   preSieve_init_built_noop (PreSieveT.initBuffers PreSieveT.initial) 0 30
     (built_head PreSieveT.initial)⟩

/-- C7: preSieveSmall overwrites the sieve with the periodic extension of
the 1001-byte static buffer entered at byte (segmentLow mod 30030) / 30:
sieve[j] = buffer[((segmentLow mod 30030) / 30 + j) mod 1001] for every
j < n, in both the single-copy branch and the tail-copy-plus-tiling
branch. -/
theorem preSieveSmall_periodic (sv : List Nat) (L : Nat) (_hL : L % 30 = 0) :
    (preSieveSmall sv L).length = sv.length ∧
    ∀ j, j < sv.length → (preSieveSmall sv L).getD j 0 =
      buffer_7_11_13.getD ((L % 30030 / 30 + j) % 1001) 0 :=
  preSieveSmall_char sv L

/-- C7 witness: a one-byte sieve at segmentLow 0. -/
theorem preSieveSmall_periodic_witness :
    (0 : Nat) % 30 = 0 ∧
    ((preSieveSmall [0] 0).length = ([0] : List Nat).length ∧
     ∀ j, j < ([0] : List Nat).length → (preSieveSmall [0] 0).getD j 0 =
       buffer_7_11_13.getD ((0 % 30030 / 30 + j) % 1001) 0) :=
  ⟨rfl, preSieveSmall_periodic [0] 0 rfl⟩

/-- C8: memory safety of the strike loops: in the total embedding every
read-modify-write of the inner crossOff is instrumented with an in-range
check (the eight unchecked fast-path writes and every CHECK_FINISHED-guarded
slow-path write), and a pass started with the flag `true` always returns
`true`: no write lands at or beyond the segment end. -/
theorem crossOff_writes_in_range (n : Nat) (ps : List SPrime) (sv : List Nat) :
    (crossOffSeg n ps sv true).2.2 = true := by
  rw [crossOffSeg_sim]

/-- C9 (amended): after an inner crossOff pass over n bytes from base L
(L ≡ 0 mod 30), the record of a wheel-installed prime q designates the
least multiple q · mm with mm coprime to 30 and q · mm ≥ L + 30 n + 7 —
the first multiple representable in the byte layout from the next segment
on.  The spec's threshold, the segment end L + 30 n itself, is wrong: a
multiple in [L + 30 n, L + 30 n + 7) of the form 30 m + 1 has already been
struck as bit 7 of the last byte (see the counterexample). -/
theorem crossOffPrime_state_invariant (q L n : Nat) (sv : List Nat) (ok : Bool)
    (hq7 : 7 ≤ q) (hqg : Nat.gcd q 30 = 1) (hL : L % 30 = 0) :
    ∃ mm : Nat, Nat.gcd mm 30 = 1 ∧ L + 30 * n + 7 ≤ q * mm ∧
      (∀ t, Nat.gcd t 30 = 1 → t < mm → q * t < L + 30 * n + 7) ∧
      (crossOffPrime n (Wheel.addSievingPrime q L) sv ok).1 =
        ⟨q / 30, (q * mm - L - 7) / 30 - n,
         8 * clsIdx (q % 30) + phaseIdx (mm % 30)⟩ := by
  obtain ⟨hc8, hqdecomp, hdiv8, hmod8, _⟩ := @wheel_setup q L hq7 hqg
  obtain ⟨hg0, hge0, hmin0⟩ := @wheelFirst_spec q L (by omega)
  obtain ⟨_, mm, hmmle, hmmg, hmmge, hmmmin, hst1, hst2⟩ :=
    @simpleL_char n (q / 30) (clsIdx (q % 30)) (phaseIdx (wheelFirst q L % 30))
      ((q * wheelFirst q L - L - 7) / 30) L (wheelFirst q L) q hc8 hqdecomp hL hg0
      (by have := phaseIdx_lt (wheelFirst q L % 30); omega) hge0 rfl
  refine ⟨mm, hmmg, hmmge, ?_, ?_⟩
  · intro t htg htlt
    by_cases htm : wheelFirst q L ≤ t
    · exact hmmmin t htm htlt htg
    · push_neg at htm
      by_cases hqt : L + 7 ≤ q * t
      · exact absurd (hmin0 t htg hqt) (by omega)
      · push_neg at hqt
        omega
  · rw [crossOffPrime_sim]
    unfold Wheel.addSievingPrime
    dsimp only
    simp only [hdiv8, hmod8]
    rw [hst1, hst2]

/-- C9 counterexample: q = 31, a one-byte segment from base 0: the spec's
"first multiple of the prime (coprime to 30) at or beyond the segment end"
is 31 · 1 = 31 ≥ 30, but the saved record is (6, 57), which decodes to the
multiple 30 + 30·6 + 7 = 217 = 31 · 7 (31 itself was struck inside the
segment, as bit 7 of byte 0). -/
theorem crossOffPrime_state_cex :
    (crossOffPrime 1 (Wheel.addSievingPrime 31 0) [255] true).1 =
      (⟨1, 6, 57⟩ : SPrime) ∧
    (0 + 30 * 1) + 30 * 6 + rOff (maskBitT ((57 &&& 63) / 8) ((57 &&& 63) % 8)) = 217 ∧
    Nat.gcd 1 30 = 1 ∧ 30 * 1 ≤ 31 * 1 ∧ 31 * 1 ≠ 217 :=
  ⟨by decide, by decide, by decide, by decide, by decide⟩

/-- C9 witness: the amended theorem at q = 7, one byte from base 0. -/
theorem crossOffPrime_state_invariant_witness :
    7 ≤ 7 ∧ Nat.gcd 7 30 = 1 ∧ (0 : Nat) % 30 = 0 ∧
    (∃ mm : Nat, Nat.gcd mm 30 = 1 ∧ 0 + 30 * 1 + 7 ≤ 7 * mm ∧
      (∀ t, Nat.gcd t 30 = 1 → t < mm → 7 * t < 0 + 30 * 1 + 7) ∧
      (crossOffPrime 1 (Wheel.addSievingPrime 7 0) [255] true).1 =
        ⟨7 / 30, (7 * mm - 0 - 7) / 30 - 1,
         8 * clsIdx (7 % 30) + phaseIdx (mm % 30)⟩) :=
  ⟨by decide, by decide, rfl,
   crossOffPrime_state_invariant 7 0 1 [255] true (by decide) (by decide) rfl⟩

/-- C10: the copy loop of preSieveLarge terminates for every sieve length
and segmentLow once the eight buffers are built: every cursor starts below
its buffer length and stays there across the wrap-to-zero step, bytesToCopy
is at least 1 each iteration, so fuel one more than the sieve length makes
the fuel-indexed loop return. -/
theorem preSieveLarge_loop_terminates (ps0 : PreSieveT) (sv : List Nat) (L : Nat) :
    (psLoop (PreSieveT.initBuffers ps0).buffers (sv.length + 1) 0
      ((PreSieveT.initBuffers ps0).buffers.map fun b => L % (b.length * 30) / 30)
      sv).isSome = true := by
  have h := psLoop_isSome (PreSieveT.initBuffers ps0).buffers (built_hbl ps0)
    ((PreSieveT.initBuffers ps0).buffers.map fun b => L % (b.length * 30) / 30) sv
  apply h
  intro i hi
  rw [getD_map _ _ i 0 [] hi]
  have h0 := built_hbl ps0 i hi
  show L % (((PreSieveT.initBuffers ps0).buffers.getD i []).length * 30) / 30 <
    ((PreSieveT.initBuffers ps0).buffers.getD i []).length
  rw [Nat.div_lt_iff_lt_mul (show (0:ℕ) < 30 by norm_num)]
  exact Nat.mod_lt _ (by omega)
